import Mathlib

/-!
Verification of the plugin runtime registry (MadHatter) and the
authenticated static-file wrapper (AuthStatic).

The definitions below are a shallow embedding of the Python sources
  core/cat/mad_hatter/mad_hatter.py
  core/cat/routes/static/auth_static.py
Filesystem reads are passed in as explicit values (the content that
open/json.load would observe), the vector store is explicit state, and
every store interaction is recorded in an operation trace so that
claims about the number and shape of store calls can be stated.
-/

/-! ## Association lists, modelling Python dict semantics
A Python dict preserves insertion order; overwriting an existing key
keeps its original position, inserting a new key appends it at the end. -/

def dictGet {α : Type} : List (String × α) → String → Option α
  | [], _ => none
  | p :: ps, k => if p.1 == k then some p.2 else dictGet ps k

def dictSet {α : Type} : List (String × α) → String → α → List (String × α)
  | [], k, v => [(k, v)]
  | p :: ps, k, v => if p.1 == k then (k, v) :: ps else p :: dictSet ps k v

/-- Python `\x7b**a, **b\x7d`: entries of `b` folded over `a`, left to right. -/
def dictMerge {α : Type} (a b : List (String × α)) : List (String × α) :=
  b.foldl (fun acc p => dictSet acc p.1 p.2) a

def firstSome {α : Type} (a b : Option α) : Option α :=
  match a with
  | some v => some v
  | none => b

/-! ## Hooks: MadHatter.execute_hook (mad_hatter.py lines 262-269)

`self.hooks` is the list produced by CatHooks.sort_hooks() (sorted by
priority outside this module); each element is a dict with keys
hook_name and hook_function.  Hook functions take the original
positional arguments plus the host context passed as keyword `cat`;
here they are modelled as functions from the argument list and the
context to a result value. -/

structure Hook where
  hook_name : String
  hook_function : List Int → Int → Int

/-- Literal embedding of the loop in execute_hook: scan `self.hooks`
in order, on the first element whose hook_name matches return
`hook(*args, cat=self.ccat)`; if the scan ends, raise. -/
def execute_hook (hooks : List Hook) (hook_name : String) (args : List Int)
    (ccat : Int) : Except String Int :=
  match hooks with
  | [] => Except.error ("Hook " ++ hook_name ++ " not present in any plugin")
  | h :: rest =>
    if hook_name = h.hook_name then Except.ok (h.hook_function args ccat)
    else execute_hook rest hook_name args ccat

/-- Handlers whose body runs during execute_hook: the first name match
only (the function returns right after invoking it). -/
def execute_hook_invoked (hooks : List Hook) (hook_name : String) : List Hook :=
  match hooks with
  | [] => []
  | h :: rest =>
    if hook_name = h.hook_name then [h] else execute_hook_invoked rest hook_name

def demo_hook_fn : List Int → Int → Int :=
  fun args ccat => ccat + args.length

def demo_hook : Hook :=
  { hook_name := "before_cat_sends_message", hook_function := demo_hook_fn }

def demo_hook_low : Hook :=
  { hook_name := "before_cat_sends_message", hook_function := fun _ _ => 0 }

/-! ## JSON documents for plugin settings

A parsed settings file is any JSON value.  json.load on an object
yields a dict (string keys, opaque values); on an array it yields a
list.  Nested values are opaque to every operation modelled here, so
leaf values suffice. -/

inductive Val where
  | bool (b : Bool)
  | num (n : Int)
  | str (s : String)
deriving DecidableEq

inductive JsonDoc where
  | obj (entries : List (String × Val))
  | arr (items : List Val)
deriving DecidableEq

/-- Content of a file as seen by the loader: `none` means the file is
absent (os.path.isfile is false / open raises), `some none` means it
exists but json.load raises, `some (some d)` means it parses to `d`. -/
abbrev FileContent (α : Type) : Type := Option (Option α)

/-! ## MadHatter.get_plugin_settings (mad_hatter.py lines 217-231)

settings starts as the default dict.  If the file exists and parses,
settings is rebound to the parsed value; when that value is a dict
missing the key "active", `settings["active"] = False` appends the
key.  When the parsed value is not a dict, the membership test or the
key assignment raises (TypeError), the broad except swallows it, and
the already-rebound non-dict value is returned unchanged. -/

def get_plugin_settings (file : FileContent JsonDoc) : JsonDoc :=
  match file with
  | none => JsonDoc.obj [("active", Val.bool false)]
  | some none => JsonDoc.obj [("active", Val.bool false)]
  | some (some (JsonDoc.obj d)) =>
    if (dictGet d "active").isSome then JsonDoc.obj d
    else JsonDoc.obj (dictSet d "active" (Val.bool false))
  | some (some (JsonDoc.arr l)) => JsonDoc.arr l

/-- A returned settings value exposes the key "active" only when it is
an object containing that key. -/
def hasActiveKey : JsonDoc → Bool
  | JsonDoc.obj d => (dictGet d "active").isSome
  | JsonDoc.arr _ => false

/-! ## MadHatter.save_plugin_settings (mad_hatter.py lines 234-249)

updated_settings starts as the payload.  If the stored file opens and
parses as a dict, the payload is shallow-merged over it and the merge
is written back; on any failure (missing file, parse error, or the
`\x7b**current, **settings\x7d` unpacking raising on a non-dict) the except
branch logs and the payload is returned with the file untouched. -/

def save_plugin_settings (file : FileContent JsonDoc) (settings : List (String × Val)) :
    List (String × Val) × FileContent JsonDoc :=
  match file with
  | some (some (JsonDoc.obj current)) =>
    (dictMerge current settings, some (some (JsonDoc.obj (dictMerge current settings))))
  | _ => (settings, file)

/-- Value stored for a key before the save: only a readable object
file stores keys. -/
def storedGet (file : FileContent JsonDoc) (k : String) : Option Val :=
  match file with
  | some (some (JsonDoc.obj d)) => dictGet d k
  | _ => none

/-! ## Tools and the vector store

A Tool is a CatTool: name, description (the embedded text and the join
key against stored records), docstring, and the embedding assigned by
embed_tools (absent on a freshly constructed tool).  Vectors are
modelled as integer lists; the truthiness test `not tool.embedding`
is false for None and for an empty list. -/

structure Tool where
  name : String
  description : String
  docstring : String
  embedding : Option (List Int)
deriving DecidableEq

/-- Python truthiness of the embedding field: None and [] are falsy. -/
def truthy : Option (List Int) → Bool
  | none => false
  | some v => !v.isEmpty

/-- A stored point of the procedural collection: payload carries
page_content (the tool description) plus source metadata. -/
structure Record where
  id : Nat
  vector : List Int
  page_content : String
  tool_name : String
  docstring : String
  created_at : Nat
deriving DecidableEq

structure VectorStore where
  points : List Record
  next_id : Nat
deriving DecidableEq

/-- Store calls made by embed_tools, in order. -/
inductive Op where
  | get_all_points
  | delete (ids : List Nat)
  | add_texts (text : String)
  | retrieve (ids : List Nat)
deriving DecidableEq

/-- memory.vectors.procedural.add_texts([description], [metadata]):
appends one point whose vector the embedder computes from the text,
and returns the inserted ids. -/
def add_texts (embedder : String → List Int) (clock : Nat) (st : VectorStore)
    (descr tname tdoc : String) : List Nat × VectorStore :=
  ([st.next_id],
   { points := st.points ++ [⟨st.next_id, embedder descr, descr, tname, tdoc, clock⟩],
     next_id := st.next_id + 1 })

/-- vector_db.retrieve(collection, ids, with_vectors=True): the stored
points whose id is among `ids`, in store order. -/
def retrieve (st : VectorStore) (ids : List Nat) : List Record :=
  st.points.filter (fun r => ids.contains r.id)

/-! ## MadHatter.embed_tools (mad_hatter.py lines 130-183) -/

def toolsIndexAux : Nat → List Tool → List (String × Nat) → List (String × Nat)
  | _, [], d => d
  | i, t :: ts, d => toolsIndexAux (i + 1) ts (dictSet d t.description i)

/-- plugins_tools_index, the dict comprehension over self.tools keyed
by description.  The dict holds references into self.tools, modelled
as positions; a later tool with the same description overwrites an
earlier entry, as in Python. -/
def toolsIndex (tools : List Tool) : List (String × Nat) :=
  toolsIndexAux 0 tools []

/-- Assign an embedding to the tool at one position of self.tools
(the dict lookup returns a reference into that list). -/
def updateEmb : List Tool → Nat → List Int → List Tool
  | [], _, _ => []
  | t :: ts, 0, v => { t with embedding := some v } :: ts
  | t :: ts, i + 1, v => t :: updateEmb ts i v

/-- First loop of embed_tools, over the stored points: a point whose
page_content is a key of the index assigns its vector to that tool;
the KeyError on any other point is caught and the point id is marked
for deletion, the loop continuing either way. -/
def recordLoop (idx : List (String × Nat)) : List Tool → List Record → List Tool × List Nat
  | tools, [] => (tools, [])
  | tools, r :: rs =>
    match dictGet idx r.page_content with
    | some i => recordLoop idx (updateEmb tools i r.vector) rs
    | none =>
      let rest := recordLoop idx tools rs
      (rest.1, r.id :: rest.2)

/-- Second loop of embed_tools, over self.tools: a tool with a falsy
embedding has its description added to the store, the fresh point is
read back (records_inserted[0]), and its vector is assigned. -/
def toolLoop (embedder : String → List Int) (clock : Nat) :
    List Tool → VectorStore → List Tool × VectorStore × List Op
  | [], st => ([], st, [])
  | t :: ts, st =>
    if truthy t.embedding then
      let rest := toolLoop embedder clock ts st
      (t :: rest.1, rest.2.1, rest.2.2)
    else
      let ins := add_texts embedder clock st t.description t.name t.docstring
      let records_inserted := retrieve ins.2 ins.1
      let emb := (records_inserted.headD ⟨0, [], "", "", "", 0⟩).vector
      let rest := toolLoop embedder clock ts ins.2
      ({ t with embedding := some emb } :: rest.1,
       rest.2.1,
       Op.add_texts t.description :: Op.retrieve ins.1 :: rest.2.2)

structure SyncResult where
  tools : List Tool
  store : VectorStore
  ops : List Op
deriving DecidableEq

/-- embed_tools: fetch all stored points, build the description index,
run the record loop, batch-delete the marked ids in one call when any
were marked, then run the tool loop. -/
def embed_tools (embedder : String → List Int) (clock : Nat)
    (tools : List Tool) (st : VectorStore) : SyncResult :=
  let idx := toolsIndex tools
  let pass := recordLoop idx tools st.points
  let points_to_be_deleted := pass.2
  let afterDelete : VectorStore :=
    if points_to_be_deleted.isEmpty then st
    else { st with
           points := st.points.filter (fun r => !(points_to_be_deleted.contains r.id)) }
  let deleteOps : List Op :=
    if points_to_be_deleted.isEmpty then [] else [Op.delete points_to_be_deleted]
  let fin := toolLoop embedder clock pass.1 afterDelete
  { tools := fin.1, store := fin.2.1, ops := Op.get_all_points :: (deleteOps ++ fin.2.2) }

def isDeleteOp : Op → Bool
  | Op.delete _ => true
  | _ => false

def isAddOp : Op → Bool
  | Op.add_texts _ => true
  | _ => false

/-- The spec-side notion of a stale stored point: its description
matches no current tool. -/
def stale_record_ids (tools : List Tool) (points : List Record) : List Nat :=
  (points.filter (fun r => !((tools.map (·.description)).contains r.page_content))).map (·.id)

/-! ## MadHatter.get_plugin_metadata (mad_hatter.py lines 186-214) -/

/-- Fields json.load may provide from plugin.json; every field is
optional and taken through dict.get with a default. -/
structure PluginJson where
  name : Option String
  description : Option String
  author_name : Option String
  author_url : Option String
  plugin_url : Option String
  tags : Option String
  thumb : Option String
  version : Option String
deriving DecidableEq

def emptyPluginJson : PluginJson :=
  ⟨none, none, none, none, none, none, none, none⟩

structure Meta where
  id : String
  name : String
  description : String
  author_name : String
  author_url : String
  plugin_url : String
  tags : String
  thumb : String
  version : String
deriving DecidableEq

/-- Split a character list at underscores, as Python str.split("_"). -/
def splitParts : List Char → List (List Char)
  | [] => [[]]
  | c :: cs =>
    let rest := splitParts cs
    if c = '_' then [] :: rest
    else
      match rest with
      | [] => [[c]]
      | p :: ps => (c :: p) :: ps

def capitalizePart : List Char → List Char
  | [] => []
  | c :: cs => c.toUpper :: cs

/-- Modelled from the spec: cat.utils.to_camel_case is not among the
repository files given; the spec states `name` defaults to "a
camel-cased transform of id" with example id "foo" giving name "Foo":
underscore-separated parts, each capitalized, joined. -/
def to_camel_case (text : String) : String :=
  ⟨(splitParts text.data).foldl (fun acc part => acc ++ capitalizePart part) []⟩

def default_plugin_description : String :=
  "Description not found for this plugin. Please create a `plugin.json` in the plugin folder."

/-- A plugin directory: its basename, the recursively found .py files,
the content of its plugin.json as the loader sees it, and the CatTool
objects its modules expose (module loading is host introspection,
modelled as data carried by the folder). -/
structure PluginFolder where
  dirname : String
  py_files : List String
  plugin_json : FileContent PluginJson
  tools : List Tool
deriving DecidableEq

/-- get_plugin_metadata: id is the basename of the normalized folder
path; every other field comes from the parsed descriptor when present,
else from the stated default.  An absent or unparseable descriptor
leaves json_file_data as the empty dict. -/
def get_plugin_metadata (folder : PluginFolder) : Meta :=
  let json_file_data : PluginJson :=
    match folder.plugin_json with
    | some (some j) => j
    | _ => emptyPluginJson
  { id := folder.dirname,
    name := json_file_data.name.getD (to_camel_case folder.dirname),
    description := json_file_data.description.getD default_plugin_description,
    author_name := json_file_data.author_name.getD "Unknown author",
    author_url := json_file_data.author_url.getD "",
    plugin_url := json_file_data.plugin_url.getD "",
    tags := json_file_data.tags.getD "unknown",
    thumb := json_file_data.thumb.getD "",
    version := json_file_data.version.getD "0.0.1" }

/-! ## MadHatter.find_plugins / uninstall_plugin (mad_hatter.py 45-119) -/

/-- The plugin root: the always-present core plugin folder plus the
folders under cat/plugins/. -/
structure FS where
  core_folder : PluginFolder
  plugin_folders : List PluginFolder
deriving DecidableEq

/-- find_plugin: a directory with no .py files is not a plugin and
contributes nothing; otherwise its metadata and its tools. -/
def find_plugin (folder : PluginFolder) : Option Meta × List Tool :=
  if folder.py_files.isEmpty then (none, [])
  else (some (get_plugin_metadata folder), folder.tools)

/-- find_plugins: scan the core folder then every plugin folder,
collecting plugin records and tools in order. -/
def find_plugins (fs : FS) : List Meta × List Tool :=
  (fs.core_folder :: fs.plugin_folders).foldl
    (fun acc folder =>
      let res := find_plugin folder
      (acc.1 ++ res.1.toList, acc.2 ++ res.2))
    ([], [])

/-- plugin_exists: membership test over the scanned plugin records. -/
def plugin_exists (plugins : List Meta) (plugin_id : String) : Bool :=
  decide (0 < (plugins.filter (fun p => p.id == plugin_id)).length)

inductive PyError where
  | file_not_found (path : String)
deriving DecidableEq

/-- shutil.rmtree(plugin_path + plugin_id): removes the directory with
that basename, raising FileNotFoundError when no such directory
exists.  uninstall_plugin performs no registry existence check of its
own. -/
def rmtree (fs : FS) (plugin_id : String) : Except PyError FS :=
  if fs.plugin_folders.any (fun f => f.dirname == plugin_id) then
    Except.ok { fs with
      plugin_folders := fs.plugin_folders.filter (fun f => !(f.dirname == plugin_id)) }
  else Except.error (PyError.file_not_found plugin_id)

structure UninstallResult where
  fs : FS
  plugins : List Meta
  tools : List Tool
  store : VectorStore
  ops : List Op

/-- uninstall_plugin: remove the plugin folder, rescan, re-embed. -/
def uninstall_plugin (embedder : String → List Int) (clock : Nat)
    (fs : FS) (st : VectorStore) (plugin_id : String) :
    Except PyError UninstallResult :=
  match rmtree fs plugin_id with
  | Except.error e => Except.error e
  | Except.ok fs1 =>
    let scan := find_plugins fs1
    let sync := embed_tools embedder clock scan.2 st
    Except.ok ⟨fs1, scan.1, sync.tools, sync.store, sync.ops⟩

/-! ## AuthStatic (auth_static.py lines 9-12) -/

structure AsgiRequest where
  headers : List (String × String)

inductive AuthEvent where
  | key_check (token : Option String)
  | serve_static
deriving DecidableEq

/-- AuthStatic.__call__: build the request from the scope, run
check_api_key on the access_token header, then (only when the check
returned rather than raised) delegate to StaticFiles.__call__.  The
event list records what ran, in order. -/
def authStaticCall (check_api_key : Option String → Except String Unit)
    (request : AsgiRequest) : Except String Unit × List AuthEvent :=
  let token := dictGet request.headers "access_token"
  match check_api_key token with
  | Except.error e => (Except.error e, [AuthEvent.key_check token])
  | Except.ok _ => (Except.ok (), [AuthEvent.key_check token, AuthEvent.serve_static])

/-! ## The position selected by the description index -/

/-- Position of the last tool with a given description, counting from
offset n: the entry the dict comprehension keeps. -/
def lastToolIdx : Nat → List Tool → String → Option Nat
  | _, [], _ => none
  | n, t :: ts, k =>
    match lastToolIdx (n + 1) ts k with
    | some j => some j
    | none => if t.description == k then some n else none

/-- The last stored point the record loop would assign to position i. -/
def lastMatch (idx : List (String × Nat)) (i : Nat) : List Record → Option Record
  | [] => none
  | r :: rs =>
    match lastMatch idx i rs with
    | some r' => some r'
    | none =>
      match dictGet idx r.page_content with
      | some j => if j = i then some r else none
      | none => none

/-! ## The points appended by the tool loop -/

/-- The points the tool loop appends: one per falsy tool, in tool
order, with consecutive fresh ids. -/
def newRecords (embedder : String → List Int) (clock : Nat) :
    List Tool → Nat → List Record
  | [], _ => []
  | t :: ts, nid =>
    if truthy t.embedding then newRecords embedder clock ts nid
    else ⟨nid, embedder t.description, t.description, t.name, t.docstring, clock⟩ ::
      newRecords embedder clock ts (nid + 1)

/-! ## Decomposing embed_tools -/

def syncStale (tools : List Tool) (st : VectorStore) : List Nat :=
  (recordLoop (toolsIndex tools) tools st.points).2

def syncAfterDelete (tools : List Tool) (st : VectorStore) : VectorStore :=
  if (syncStale tools st).isEmpty then st
  else { st with
         points := st.points.filter (fun r => !((syncStale tools st).contains r.id)) }

def demo_embedder : String → List Int := fun _ => [9]

def demo_core_folder : PluginFolder := ⟨"core_plugin", ["core.py"], none, []⟩

def demo_foo_folder : PluginFolder := ⟨"foo", [], none, []⟩

def demo_fs : FS := ⟨demo_core_folder, [demo_foo_folder]⟩

def demo_bar_folder : PluginFolder := ⟨"bar", ["bar.py"], none, []⟩

def demo_fs2 : FS := ⟨demo_core_folder, [demo_bar_folder]⟩

def demo_nodesc_folder : PluginFolder := ⟨"foo", ["foo.py"], none, []⟩

def cex_dup_tools : List Tool := [⟨"tool1", "d", "doc", none⟩]

def cex_dup_store : VectorStore :=
  ⟨[⟨1, [1], "d", "x", "y", 0⟩, ⟨2, [2], "d", "x", "y", 0⟩], 3⟩

def cex_c2_tools : List Tool := [⟨"t1", "d", "doc1", none⟩, ⟨"t2", "d", "doc2", none⟩]

def cex_c2_store : VectorStore := ⟨[⟨0, [7], "d", "x", "y", 0⟩], 1⟩

def witness_c1_tools : List Tool := [⟨"tool1", "search the web", "doc", none⟩]

def witness_c1_store : VectorStore := ⟨[⟨0, [3], "old", "x", "y", 0⟩], 1⟩

def witness_c2_tools : List Tool :=
  [⟨"t1", "d1", "doc1", none⟩, ⟨"t2", "d2", "doc2", none⟩]

def witness_c2_store : VectorStore :=
  ⟨[⟨0, [7], "d1", "x", "y", 0⟩, ⟨5, [3], "gone", "x", "y", 0⟩], 6⟩

/-! ## Lemmas and claim theorems -/

theorem dictGet_dictSet {α : Type} (d : List (String × α)) (k k' : String) (v : α) :
    dictGet (dictSet d k v) k' = if k' = k then some v else dictGet d k' := by
  induction d with
  | nil =>
    by_cases hk : k' = k
    · simp [dictSet, dictGet, hk]
    · have : ¬((k : String) == k') = true := by
        simp only [beq_iff_eq]; exact fun h => hk h.symm
      simp [dictSet, dictGet, hk, this]
  | cons p ps ih =>
    by_cases hp : p.1 = k
    · have hpb : ((p.1 : String) == k) = true := by simp [hp]
      by_cases hk : k' = k
      · simp [dictSet, dictGet, hpb, hk]
      · have h1 : ¬((k : String) == k') = true := by
          simp only [beq_iff_eq]; exact fun h => hk h.symm
        have h2 : ¬((p.1 : String) == k') = true := by
          simp only [beq_iff_eq, hp]; exact fun h => hk h.symm
        simp [dictSet, dictGet, hpb, hk, h1, h2]
    · have hpb : ¬((p.1 : String) == k) = true := by simp [hp]
      by_cases hpk' : p.1 = k'
      · have h1 : ((p.1 : String) == k') = true := by simp [hpk']
        have hk : ¬(k' = k) := fun h => hp (hpk'.trans h)
        simp [dictSet, dictGet, hpb, h1, hk]
      · have h1 : ¬((p.1 : String) == k') = true := by simp [hpk']
        simp [dictSet, dictGet, hpb, h1, ih]

theorem dictGet_eq_none_of_not_mem {α : Type} (d : List (String × α)) (k : String)
    (h : k ∉ d.map Prod.fst) : dictGet d k = none := by
  induction d with
  | nil => rfl
  | cons p ps ih =>
    simp only [List.map_cons, List.mem_cons, not_or] at h
    have hpb : ¬((p.1 : String) == k) = true := by
      simp only [beq_iff_eq]; exact fun he => h.1 he.symm
    simp [dictGet, hpb, ih h.2]

theorem dictGet_dictMerge {α : Type} (a b : List (String × α))
    (hb : (b.map Prod.fst).Nodup) (k : String) :
    dictGet (dictMerge a b) k = firstSome (dictGet b k) (dictGet a k) := by
  induction b generalizing a with
  | nil => simp [dictMerge, dictGet, firstSome]
  | cons p bs ih =>
    simp only [List.map_cons, List.nodup_cons] at hb
    obtain ⟨hp, hbs⟩ := hb
    simp only [dictMerge, List.foldl_cons]
    rw [show (List.foldl (fun acc q => dictSet acc q.1 q.2) (dictSet a p.1 p.2) bs)
        = dictMerge (dictSet a p.1 p.2) bs from rfl]
    rw [ih _ hbs]
    by_cases hk : k = p.1
    · have hnone : dictGet bs p.1 = none :=
        dictGet_eq_none_of_not_mem bs p.1 hp
      have hkp : ((p.1 : String) == k) = true := by simp [hk]
      simp [hnone, dictGet_dictSet, firstSome, dictGet, hkp, hk]
    · have hkp : ¬((p.1 : String) == k) = true := by
        simp only [beq_iff_eq]; exact fun h => hk h.symm
      simp [dictGet_dictSet, hk, firstSome, dictGet, hkp]

/-- C3: execute_hook raises exactly when no registered hook has the
requested name; the failure is the distinct "hook not found" message,
and when a matching hook exists the call returns a value instead. -/
theorem execute_hook_error_iff_absent (hooks : List Hook) (hook_name : String)
    (args : List Int) (ccat : Int) :
    ((∃ v, execute_hook hooks hook_name args ccat = Except.ok v) ↔
      ∃ h ∈ hooks, h.hook_name = hook_name) ∧
    ((∀ h ∈ hooks, h.hook_name ≠ hook_name) →
      execute_hook hooks hook_name args ccat =
        Except.error ("Hook " ++ hook_name ++ " not present in any plugin")) := by
  induction hooks with
  | nil =>
    constructor
    · constructor
      · rintro ⟨v, hv⟩; simp [execute_hook] at hv
      · rintro ⟨h, hm, _⟩; simp at hm
    · intro _; rfl
  | cons h rest ih =>
    constructor
    · constructor
      · rintro ⟨v, hv⟩
        by_cases he : hook_name = h.hook_name
        · exact ⟨h, List.mem_cons_self h rest, he.symm⟩
        · simp only [execute_hook, he, if_false] at hv
          obtain ⟨h', hm', hn'⟩ := ih.1.mp ⟨v, hv⟩
          exact ⟨h', List.mem_cons_of_mem h hm', hn'⟩
      · rintro ⟨h', hm', hn'⟩
        by_cases he : hook_name = h.hook_name
        · exact ⟨h.hook_function args ccat, by simp [execute_hook, he]⟩
        · rcases List.mem_cons.mp hm' with rfl | hm''
          · exact absurd hn'.symm he
          · obtain ⟨v, hv⟩ := ih.1.mpr ⟨h', hm'', hn'⟩
            exact ⟨v, by simp [execute_hook, he, hv]⟩
    · intro hall
      have hne : hook_name ≠ h.hook_name :=
        fun he => hall h (List.mem_cons_self h rest) he.symm
      simp only [execute_hook, hne, if_false]
      exact ih.2 (fun h' hm' => hall h' (List.mem_cons_of_mem h hm'))

/-- Witness for C3 at a concrete registry: the error case fires on the
empty registry and the success case fires when the hook is present. -/
theorem execute_hook_error_iff_absent_witness :
    execute_hook [] "nonexistent_hook" [] 0 =
      Except.error ("Hook " ++ "nonexistent_hook" ++ " not present in any plugin") ∧
    (∃ v, execute_hook [demo_hook] "before_cat_sends_message" [3, 4] 7 = Except.ok v) := by
  constructor
  · exact (execute_hook_error_iff_absent [] "nonexistent_hook" [] 0).2 (by simp)
  · exact (execute_hook_error_iff_absent [demo_hook] "before_cat_sends_message" [3, 4] 7).1.mpr
      ⟨demo_hook, List.mem_singleton.mpr rfl, rfl⟩

/-- C4: when the name is present, execute_hook invokes exactly the
first matching hook of the (priority-sorted) list, passes it the
original positional arguments together with the host context, and
returns its result. -/
theorem execute_hook_first_match (hooks : List Hook) (hook_name : String)
    (args : List Int) (ccat : Int) (h : Hook)
    (hfind : hooks.find? (fun x => x.hook_name == hook_name) = some h) :
    execute_hook hooks hook_name args ccat = Except.ok (h.hook_function args ccat) ∧
    execute_hook_invoked hooks hook_name = [h] := by
  induction hooks with
  | nil => simp [List.find?] at hfind
  | cons h0 rest ih =>
    by_cases he : h0.hook_name = hook_name
    · have hb : ((fun x => x.hook_name == hook_name) h0) = true := by simp [he]
      rw [@List.find?_cons_of_pos _ (fun x => x.hook_name == hook_name) h0 rest hb] at hfind
      cases hfind
      constructor
      · simp [execute_hook, he.symm]
      · simp [execute_hook_invoked, he.symm]
    · have hb : ¬((fun x => x.hook_name == hook_name) h0) = true := by simp [he]
      rw [@List.find?_cons_of_neg _ (fun x => x.hook_name == hook_name) h0 rest hb] at hfind
      have hne : hook_name ≠ h0.hook_name := fun hx => he hx.symm
      obtain ⟨h1, h2⟩ := ih hfind
      exact ⟨by simp [execute_hook, hne, h1], by simp [execute_hook_invoked, hne, h2]⟩

/-- Witness for C4: a two-hook registry where both hooks share the
name; only the first is invoked and its value is returned. -/
theorem execute_hook_first_match_witness :
    execute_hook [demo_hook, demo_hook_low] "before_cat_sends_message" [3, 4] 7 =
      Except.ok (demo_hook.hook_function [3, 4] 7) ∧
    execute_hook_invoked [demo_hook, demo_hook_low] "before_cat_sends_message" = [demo_hook] :=
  execute_hook_first_match _ "before_cat_sends_message" [3, 4] 7 demo_hook rfl

/-- C6 counterexample: a settings file holding the readable JSON
document `[]` is returned as-is, without the key "active". -/
theorem get_plugin_settings_nonobject_cex :
    hasActiveKey (get_plugin_settings (some (some (JsonDoc.arr [])))) = false := rfl

/-- C6 (amended): for a missing or unparseable settings file the
result is exactly the default object containing active = false, and
for every readable settings object the result carries the key
"active", injected as false when the object omits it. -/
theorem get_plugin_settings_active_default (file : FileContent JsonDoc) :
    (file = none ∨ file = some none →
      get_plugin_settings file = JsonDoc.obj [("active", Val.bool false)]) ∧
    (∀ d, file = some (some (JsonDoc.obj d)) →
      hasActiveKey (get_plugin_settings file) = true ∧
      (dictGet d "active" = none →
        get_plugin_settings file = JsonDoc.obj (dictSet d "active" (Val.bool false)))) := by
  constructor
  · rintro (rfl | rfl) <;> rfl
  · rintro d rfl
    by_cases h : (dictGet d "active").isSome
    · refine ⟨by simp [get_plugin_settings, hasActiveKey, h], ?_⟩
      intro hnone; rw [hnone] at h; simp at h
    · have hnone : dictGet d "active" = none := by
        cases hd : dictGet d "active"
        · rfl
        · rw [hd] at h; simp at h
      refine ⟨?_, fun _ => by simp [get_plugin_settings, h]⟩
      have hred : get_plugin_settings (some (some (JsonDoc.obj d))) =
          JsonDoc.obj (dictSet d "active" (Val.bool false)) := by
        simp [get_plugin_settings, h]
      rw [hred]
      simp [hasActiveKey, dictGet_dictSet]

/-- Witness for C6 at concrete inputs: a missing file, an unparseable
file, and an object file lacking the key. -/
theorem get_plugin_settings_active_default_witness :
    get_plugin_settings none = JsonDoc.obj [("active", Val.bool false)] ∧
    get_plugin_settings (some none) = JsonDoc.obj [("active", Val.bool false)] ∧
    hasActiveKey (get_plugin_settings (some (some (JsonDoc.obj [("x", Val.num 1)])))) = true := by
  refine ⟨?_, ?_, ?_⟩
  · exact (get_plugin_settings_active_default none).1 (Or.inl rfl)
  · exact (get_plugin_settings_active_default (some none)).1 (Or.inr rfl)
  · exact ((get_plugin_settings_active_default
      (some (some (JsonDoc.obj [("x", Val.num 1)])))).2 [("x", Val.num 1)] rfl).1

/-- C7: save_plugin_settings returns the shallow merge of the payload
over the stored document: payload keys overwrite, every other stored
key is preserved; on the claim's concrete instance, stored
active = true, x = 1 merged with payload x = 2 yields active = true,
x = 2. -/
theorem save_plugin_settings_shallow_merge (file : FileContent JsonDoc)
    (settings : List (String × Val))
    (hs : (settings.map Prod.fst).Nodup) :
    (∀ k, dictGet (save_plugin_settings file settings).1 k =
      firstSome (dictGet settings k) (storedGet file k)) ∧
    (save_plugin_settings
        (some (some (JsonDoc.obj [("active", Val.bool true), ("x", Val.num 1)])))
        [("x", Val.num 2)]).1 =
      [("active", Val.bool true), ("x", Val.num 2)] := by
  refine ⟨?_, rfl⟩
  intro k
  match file with
  | some (some (JsonDoc.obj current)) =>
    exact dictGet_dictMerge current settings hs k
  | none =>
    cases hse : dictGet settings k <;>
      simp [save_plugin_settings, storedGet, firstSome, hse]
  | some none =>
    cases hse : dictGet settings k <;>
      simp [save_plugin_settings, storedGet, firstSome, hse]
  | some (some (JsonDoc.arr l)) =>
    cases hse : dictGet settings k <;>
      simp [save_plugin_settings, storedGet, firstSome, hse]

/-- Witness for C7 at the concrete instance from the claim. -/
theorem save_plugin_settings_shallow_merge_witness :
    ([("x", Val.num 2)].map (Prod.fst : String × Val → String)).Nodup ∧
    dictGet (save_plugin_settings
        (some (some (JsonDoc.obj [("active", Val.bool true), ("x", Val.num 1)])))
        [("x", Val.num 2)]).1 "active" =
      firstSome (dictGet [("x", Val.num 2)] "active")
        (storedGet (some (some (JsonDoc.obj [("active", Val.bool true), ("x", Val.num 1)])))
          "active") :=
  ⟨by decide, (save_plugin_settings_shallow_merge
      (some (some (JsonDoc.obj [("active", Val.bool true), ("x", Val.num 1)])))
      [("x", Val.num 2)] (by decide)).1 "active"⟩

theorem dictGet_toolsIndexAux (n : Nat) (ts : List Tool)
    (d : List (String × Nat)) (k : String) :
    dictGet (toolsIndexAux n ts d) k =
      match lastToolIdx n ts k with
      | some j => some j
      | none => dictGet d k := by
  induction ts generalizing n d with
  | nil => rfl
  | cons t ts ih =>
    simp only [toolsIndexAux, lastToolIdx]
    rw [ih]
    cases hl : lastToolIdx (n + 1) ts k with
    | some j => rfl
    | none =>
      rw [dictGet_dictSet]
      by_cases hk : k = t.description
      · have : (t.description == k) = true := by simp [hk]
        simp [hk, this]
      · have : ¬(t.description == k) = true := by
          simp only [beq_iff_eq]; exact fun h => hk h.symm
        simp [hk, this]

theorem lastToolIdx_none_iff (n : Nat) (ts : List Tool) (k : String) :
    lastToolIdx n ts k = none ↔ ∀ t ∈ ts, t.description ≠ k := by
  induction ts generalizing n with
  | nil => simp [lastToolIdx]
  | cons t ts ih =>
    simp only [lastToolIdx]
    cases hl : lastToolIdx (n + 1) ts k with
    | some j =>
      simp only []
      constructor
      · intro h; cases h
      · intro h
        have := (ih (n + 1)).mpr (fun t' ht' => h t' (List.mem_cons_of_mem t ht'))
        rw [hl] at this; cases this
    | none =>
      have hrest := (ih (n + 1)).mp hl
      by_cases hd : t.description = k
      · have hb : (t.description == k) = true := by simp [hd]
        rw [if_pos hb]
        constructor
        · intro h; cases h
        · intro h; exact absurd hd (h t (List.mem_cons_self t ts))
      · have hb : ¬(t.description == k) = true := by simp [hd]
        rw [if_neg hb]
        constructor
        · intro _ t' ht'
          rcases List.mem_cons.mp ht' with rfl | hm
          · exact hd
          · exact hrest t' hm
        · intro _; rfl

theorem lastToolIdx_some (n : Nat) (ts : List Tool) (k : String) (j : Nat)
    (h : lastToolIdx n ts k = some j) :
    n ≤ j ∧ ∃ t, ts.get? (j - n) = some t ∧ t.description = k := by
  induction ts generalizing n with
  | nil => cases h
  | cons t ts ih =>
    simp only [lastToolIdx] at h
    cases hl : lastToolIdx (n + 1) ts k with
    | some j' =>
      rw [hl] at h
      cases h
      obtain ⟨hle, t', ht', hdesc⟩ := ih (n + 1) hl
      refine ⟨Nat.le_of_succ_le hle, t', ?_, hdesc⟩
      have hpos : 1 ≤ j - n := by omega
      have : j - n = (j - (n + 1)) + 1 := by omega
      rw [this]
      simpa using ht'
    | none =>
      rw [hl] at h
      by_cases hd : t.description = k
      · have hb : (t.description == k) = true := by simp [hd]
        rw [hb] at h
        simp only [if_true] at h
        cases h
        exact ⟨Nat.le_refl j, t, by simp, hd⟩
      · have hb : ¬(t.description == k) = true := by simp [hd]
        simp [hb] at h

theorem dictGet_toolsIndex_none_iff (ts : List Tool) (k : String) :
    dictGet (toolsIndex ts) k = none ↔ k ∉ ts.map (·.description) := by
  unfold toolsIndex
  rw [dictGet_toolsIndexAux]
  cases hl : lastToolIdx 0 ts k with
  | some j =>
    simp only []
    obtain ⟨_, t, ht, hdesc⟩ := lastToolIdx_some 0 ts k j hl
    constructor
    · intro h; cases h
    · intro h
      exact absurd (List.mem_map.mpr ⟨t, List.get?_mem (by simpa using ht), hdesc⟩) h
  | none =>
    have := (lastToolIdx_none_iff 0 ts k).mp hl
    simp only [dictGet, true_iff]
    intro hmem
    obtain ⟨t, hmt, hdesc⟩ := List.mem_map.mp hmem
    exact this t hmt hdesc

theorem dictGet_toolsIndex_some (ts : List Tool) (k : String) (j : Nat)
    (h : dictGet (toolsIndex ts) k = some j) :
    ∃ t, ts.get? j = some t ∧ t.description = k := by
  unfold toolsIndex at h
  rw [dictGet_toolsIndexAux] at h
  cases hl : lastToolIdx 0 ts k with
  | some j' =>
    rw [hl] at h
    cases h
    obtain ⟨_, t, ht, hdesc⟩ := lastToolIdx_some 0 ts k j hl
    exact ⟨t, by simpa using ht, hdesc⟩
  | none => rw [hl] at h; cases h

theorem desc_get?_inj (ts : List Tool) (hd : (ts.map (·.description)).Nodup)
    (i j : Nat) (t t' : Tool) (hi : ts.get? i = some t) (hj : ts.get? j = some t')
    (he : t.description = t'.description) : i = j := by
  have hi' : (ts.map (·.description)).get? i = some t.description := by
    rw [List.get?_map, hi]; rfl
  have hj' : (ts.map (·.description)).get? j = some t'.description := by
    rw [List.get?_map, hj]; rfl
  have hil : i < (ts.map (·.description)).length :=
    List.get?_eq_some.mp hi' |>.1
  have hjl : j < (ts.map (·.description)).length :=
    List.get?_eq_some.mp hj' |>.1
  have hgi : (ts.map (·.description)).get ⟨i, hil⟩ = t.description :=
    List.get?_eq_some.mp hi' |>.2
  have hgj : (ts.map (·.description)).get ⟨j, hjl⟩ = t'.description :=
    List.get?_eq_some.mp hj' |>.2
  have : (⟨i, hil⟩ : Fin (ts.map (·.description)).length) = ⟨j, hjl⟩ := by
    rw [← hd.get_inj_iff]
    rw [hgi, hgj, he]
  exact congrArg Fin.val this

theorem dictGet_toolsIndex_eq_pos (ts : List Tool)
    (hd : (ts.map (·.description)).Nodup) (i : Nat) (t : Tool)
    (ht : ts.get? i = some t) :
    dictGet (toolsIndex ts) t.description = some i := by
  cases hg : dictGet (toolsIndex ts) t.description with
  | none =>
    rw [dictGet_toolsIndex_none_iff] at hg
    exact absurd (List.mem_map.mpr ⟨t, List.get?_mem ht, rfl⟩) hg
  | some j =>
    obtain ⟨t', ht', hdesc⟩ := dictGet_toolsIndex_some ts t.description j hg
    have := desc_get?_inj ts hd j i t' t ht' ht hdesc
    rw [this]

/-! ## Lemmas on updateEmb and the record loop -/

theorem updateEmb_get?_ne (ts : List Tool) (i j : Nat) (v : List Int) (h : j ≠ i) :
    (updateEmb ts i v).get? j = ts.get? j := by
  induction ts generalizing i j with
  | nil => cases i <;> rfl
  | cons t ts ih =>
    cases i with
    | zero =>
      cases j with
      | zero => exact absurd rfl h
      | succ j' => rfl
    | succ i' =>
      cases j with
      | zero => rfl
      | succ j' =>
        simp only [updateEmb, List.get?]
        exact ih i' j' (fun he => h (by rw [he]))

theorem updateEmb_get?_eq (ts : List Tool) (i : Nat) (v : List Int) :
    (updateEmb ts i v).get? i =
      (ts.get? i).map (fun t => { t with embedding := some v }) := by
  induction ts generalizing i with
  | nil => cases i <;> rfl
  | cons t ts ih =>
    cases i with
    | zero => rfl
    | succ i' => exact ih i'

theorem updateEmb_map_desc (ts : List Tool) (i : Nat) (v : List Int) :
    (updateEmb ts i v).map (·.description) = ts.map (·.description) := by
  induction ts generalizing i with
  | nil => cases i <;> rfl
  | cons t ts ih =>
    cases i with
    | zero => rfl
    | succ i' => simp only [updateEmb, List.map_cons, ih]

theorem recordLoop_stale (idx : List (String × Nat)) (ts : List Tool)
    (rs : List Record) :
    (recordLoop idx ts rs).2 =
      (rs.filter (fun r => (dictGet idx r.page_content).isNone)).map (·.id) := by
  induction rs generalizing ts with
  | nil => rfl
  | cons r rs ih =>
    cases hg : dictGet idx r.page_content with
    | some i =>
      simp only [recordLoop, hg, List.filter_cons, Option.isNone_some,
        Bool.false_eq_true, if_false]
      exact ih _
    | none =>
      simp only [recordLoop, hg, List.filter_cons, Option.isNone_none, if_true,
        List.map_cons]
      rw [ih]

theorem recordLoop_get? (idx : List (String × Nat)) (ts : List Tool)
    (rs : List Record) (i : Nat) :
    (recordLoop idx ts rs).1.get? i =
      match lastMatch idx i rs with
      | some r => (ts.get? i).map (fun t => { t with embedding := some r.vector })
      | none => ts.get? i := by
  induction rs generalizing ts with
  | nil => rfl
  | cons r rs ih =>
    cases hg : dictGet idx r.page_content with
    | some j =>
      simp only [recordLoop, hg, lastMatch]
      rw [ih]
      cases hl : lastMatch idx i rs with
      | some r' =>
        by_cases hij : j = i
        · subst hij
          rw [updateEmb_get?_eq]
          cases hti : ts.get? j <;> simp
        · rw [updateEmb_get?_ne ts j i r.vector (fun he => hij he.symm)]
      | none =>
        by_cases hij : j = i
        · subst hij
          rw [if_pos rfl]
          exact updateEmb_get?_eq ts j r.vector
        · rw [if_neg hij]
          exact updateEmb_get?_ne ts j i r.vector (fun he => hij he.symm)
    | none =>
      simp only [recordLoop, hg, lastMatch]
      rw [ih]
      cases hl : lastMatch idx i rs with
      | some r' => rfl
      | none => rfl

theorem recordLoop_map_desc (idx : List (String × Nat)) (ts : List Tool)
    (rs : List Record) :
    (recordLoop idx ts rs).1.map (·.description) = ts.map (·.description) := by
  induction rs generalizing ts with
  | nil => rfl
  | cons r rs ih =>
    cases hg : dictGet idx r.page_content with
    | some j =>
      simp only [recordLoop, hg]
      rw [ih, updateEmb_map_desc]
    | none =>
      simp only [recordLoop, hg]
      exact ih ts

theorem lastMatch_mem (idx : List (String × Nat)) (i : Nat) (rs : List Record)
    (r : Record) (h : lastMatch idx i rs = some r) : r ∈ rs := by
  induction rs with
  | nil => cases h
  | cons r0 rs ih =>
    simp only [lastMatch] at h
    cases hl : lastMatch idx i rs with
    | some r' =>
      rw [hl] at h; cases h
      exact List.mem_cons_of_mem r0 (ih hl)
    | none =>
      rw [hl] at h
      cases hg : dictGet idx r0.page_content with
      | some j =>
        rw [hg] at h
        dsimp only at h
        by_cases hij : j = i
        · rw [if_pos hij] at h; cases h; exact List.mem_cons_self _ _
        · rw [if_neg hij] at h; cases h
      | none => rw [hg] at h; cases h

theorem lastMatch_none_iff (idx : List (String × Nat)) (i : Nat) (rs : List Record) :
    lastMatch idx i rs = none ↔ ∀ r ∈ rs, dictGet idx r.page_content ≠ some i := by
  induction rs with
  | nil => simp [lastMatch]
  | cons r0 rs ih =>
    simp only [lastMatch]
    cases hl : lastMatch idx i rs with
    | some r' =>
      constructor
      · intro h; cases h
      · intro h
        have h2 := ih.mpr (fun r hr => h r (List.mem_cons_of_mem r0 hr))
        rw [hl] at h2; cases h2
    | none =>
      have hrest := ih.mp hl
      cases hg : dictGet idx r0.page_content with
      | some j =>
        dsimp only
        by_cases hij : j = i
        · rw [if_pos hij]
          constructor
          · intro h; cases h
          · intro h
            exact absurd (hij ▸ hg) (h r0 (List.mem_cons_self r0 rs))
        · rw [if_neg hij]
          constructor
          · intro _ r hr
            rcases List.mem_cons.mp hr with rfl | hm
            · rw [hg]; intro he; injection he with hji; exact hij hji
            · exact hrest r hm
          · intro _; rfl
      | none =>
        constructor
        · intro _ r hr
          rcases List.mem_cons.mp hr with rfl | hm
          · rw [hg]; intro he; cases he
          · exact hrest r hm
        · intro _; rfl

theorem lastMatch_append (idx : List (String × Nat)) (i : Nat)
    (xs ys : List Record) :
    lastMatch idx i (xs ++ ys) =
      match lastMatch idx i ys with
      | some r => some r
      | none => lastMatch idx i xs := by
  induction xs with
  | nil =>
    cases hl : lastMatch idx i ys with
    | some r => simpa using hl
    | none => simpa [lastMatch] using hl
  | cons x xs ih =>
    simp only [List.cons_append, lastMatch, List.append_eq]
    rw [ih]
    cases hl : lastMatch idx i ys with
    | some r => rfl
    | none => rfl

theorem lastMatch_filter (idx : List (String × Nat)) (i : Nat)
    (q : Record → Bool) (rs : List Record)
    (h : ∀ r ∈ rs, q r = false → dictGet idx r.page_content ≠ some i) :
    lastMatch idx i (rs.filter q) = lastMatch idx i rs := by
  induction rs with
  | nil => rfl
  | cons r0 rs ih =>
    have hrest := ih (fun r hr => h r (List.mem_cons_of_mem r0 hr))
    cases hq : q r0 with
    | true =>
      rw [List.filter_cons_of_pos hq]
      simp only [lastMatch]
      rw [hrest]
    | false =>
      rw [List.filter_cons_of_neg (by simp [hq])]
      rw [hrest]
      simp only [lastMatch]
      cases hl : lastMatch idx i rs with
      | some r' => rfl
      | none =>
        cases hg : dictGet idx r0.page_content with
        | some j =>
          dsimp only
          by_cases hij : j = i
          · exact absurd (hij ▸ hg) (h r0 (List.mem_cons_self r0 rs) hq)
          · rw [if_neg hij]
        | none => rfl

theorem toolLoop_all_truthy (embedder : String → List Int) (clock : Nat)
    (ts : List Tool) (st : VectorStore)
    (h : ∀ t ∈ ts, truthy t.embedding = true) :
    toolLoop embedder clock ts st = (ts, st, []) := by
  induction ts with
  | nil => rfl
  | cons t ts ih =>
    have ht := h t (List.mem_cons_self t ts)
    simp only [toolLoop]
    rw [if_pos ht, ih (fun t' ht' => h t' (List.mem_cons_of_mem t ht'))]

theorem toolLoop_isSome (embedder : String → List Int) (clock : Nat)
    (ts : List Tool) (st : VectorStore) :
    ∀ t ∈ (toolLoop embedder clock ts st).1, t.embedding.isSome = true := by
  induction ts generalizing st with
  | nil => intro t ht; cases ht
  | cons t0 ts ih =>
    intro t ht
    by_cases h0 : truthy t0.embedding
    · simp only [toolLoop] at ht
      rw [if_pos h0] at ht
      rcases List.mem_cons.mp ht with rfl | hm
      · cases he : t.embedding with
        | none => rw [he] at h0; cases h0
        | some v => rfl
      · exact ih _ t hm
    · simp only [toolLoop] at ht
      rw [if_neg h0] at ht
      rcases List.mem_cons.mp ht with rfl | hm
      · rfl
      · exact ih _ t hm

theorem retrieve_snoc_fresh (points : List Record) (nr : Record) (nid : Nat)
    (hfresh : ∀ r ∈ points, r.id ≠ nr.id) :
    retrieve ⟨points ++ [nr], nid⟩ [nr.id] = [nr] := by
  unfold retrieve
  rw [List.filter_append]
  have h1 : points.filter (fun r => [nr.id].contains r.id) = [] := by
    rw [List.filter_eq_nil]
    intro r hr
    have : ¬(r.id = nr.id) := hfresh r hr
    simp [List.contains, this]
  have h2 : [nr].filter (fun r => [nr.id].contains r.id) = [nr] := by
    simp [List.contains]
  rw [h1, h2]
  rfl

theorem toolLoop_spec (embedder : String → List Int) (clock : Nat)
    (ts : List Tool) (st : VectorStore)
    (hwf : ∀ r ∈ st.points, r.id < st.next_id) :
    (toolLoop embedder clock ts st).1 =
      ts.map (fun t => if truthy t.embedding then t
        else { t with embedding := some (embedder t.description) }) ∧
    (toolLoop embedder clock ts st).2.1.points =
      st.points ++ newRecords embedder clock ts st.next_id ∧
    (toolLoop embedder clock ts st).2.1.next_id =
      st.next_id + (ts.filter (fun t => !truthy t.embedding)).length ∧
    (∀ op ∈ (toolLoop embedder clock ts st).2.2, isDeleteOp op = false) := by
  induction ts generalizing st with
  | nil =>
    refine ⟨rfl, by simp [toolLoop, newRecords], by simp [toolLoop], ?_⟩
    intro op hop; cases hop
  | cons t ts ih =>
    by_cases h0 : truthy t.embedding
    · have hrest := ih st hwf
      simp only [toolLoop]
      rw [if_pos h0]
      dsimp only
      refine ⟨?_, ?_, ?_, ?_⟩
      · rw [List.map_cons, if_pos h0, hrest.1]
      · rw [hrest.2.1]
        simp only [newRecords]
        rw [if_pos h0]
      · rw [hrest.2.2.1]
        rw [List.filter_cons_of_neg (by simp [h0])]
      · exact hrest.2.2.2
    · have hne : ∀ r ∈ st.points, r.id ≠ st.next_id :=
        fun r hr => Nat.ne_of_lt (hwf r hr)
      have hret : retrieve
          ⟨st.points ++ [⟨st.next_id, embedder t.description, t.description,
            t.name, t.docstring, clock⟩], st.next_id + 1⟩ [st.next_id] =
          [⟨st.next_id, embedder t.description, t.description,
            t.name, t.docstring, clock⟩] :=
        retrieve_snoc_fresh st.points _ (st.next_id + 1) hne
      have hwf2 : ∀ r ∈ st.points ++ [⟨st.next_id, embedder t.description,
          t.description, t.name, t.docstring, clock⟩], r.id < st.next_id + 1 := by
        intro r hr
        rcases List.mem_append.mp hr with hm | hm
        · exact Nat.lt_succ_of_lt (hwf r hm)
        · rcases List.mem_singleton.mp hm with rfl
          exact Nat.lt_succ_self _
      have hrest := ih ⟨st.points ++ [⟨st.next_id, embedder t.description,
          t.description, t.name, t.docstring, clock⟩], st.next_id + 1⟩ hwf2
      simp only [toolLoop]
      rw [if_neg h0]
      simp only [add_texts, hret]
      dsimp only [List.headD]
      refine ⟨?_, ?_, ?_, ?_⟩
      · rw [List.map_cons, if_neg h0]
        rw [hrest.1]
      · rw [hrest.2.1]
        simp only [newRecords]
        rw [if_neg h0]
        simp [List.append_assoc]
      · rw [hrest.2.2.1]
        rw [List.filter_cons_of_pos (by simp [h0])]
        simp only [List.length_cons]
        omega
      · intro op hop
        rcases List.mem_cons.mp hop with rfl | hop2
        · rfl
        · rcases List.mem_cons.mp hop2 with rfl | hop3
          · rfl
          · exact hrest.2.2.2 op hop3

theorem newRecords_map_pc (embedder : String → List Int) (clock : Nat)
    (l : List Tool) (nid : Nat) :
    (newRecords embedder clock l nid).map (·.page_content) =
      (l.filter (fun t => !truthy t.embedding)).map (·.description) := by
  induction l generalizing nid with
  | nil => rfl
  | cons t ts ih =>
    by_cases h0 : truthy t.embedding
    · simp only [newRecords]
      rw [if_pos h0, List.filter_cons_of_neg (by simp [h0])]
      exact ih nid
    · simp only [newRecords]
      rw [if_neg h0, List.filter_cons_of_pos (by simp [h0])]
      simp only [List.map_cons]
      rw [ih (nid + 1)]

theorem newRecords_id_bounds (embedder : String → List Int) (clock : Nat)
    (l : List Tool) (nid : Nat) :
    ∀ r ∈ newRecords embedder clock l nid, nid ≤ r.id := by
  induction l generalizing nid with
  | nil => intro r hr; cases hr
  | cons t ts ih =>
    intro r hr
    by_cases h0 : truthy t.embedding
    · simp only [newRecords] at hr
      rw [if_pos h0] at hr
      exact ih nid r hr
    · simp only [newRecords] at hr
      rw [if_neg h0] at hr
      rcases List.mem_cons.mp hr with rfl | hm
      · exact Nat.le_refl _
      · exact Nat.le_of_succ_le (ih (nid + 1) r hm)

theorem newRecords_ids_nodup (embedder : String → List Int) (clock : Nat)
    (l : List Tool) (nid : Nat) :
    ((newRecords embedder clock l nid).map (·.id)).Nodup := by
  induction l generalizing nid with
  | nil => exact List.nodup_nil
  | cons t ts ih =>
    by_cases h0 : truthy t.embedding
    · simp only [newRecords]
      rw [if_pos h0]
      exact ih nid
    · simp only [newRecords]
      rw [if_neg h0]
      simp only [List.map_cons, List.nodup_cons]
      refine ⟨?_, ih (nid + 1)⟩
      intro hmem
      obtain ⟨r, hr, hid⟩ := List.mem_map.mp hmem
      have := newRecords_id_bounds embedder clock ts (nid + 1) r hr
      omega

theorem embed_tools_def (embedder : String → List Int) (clock : Nat)
    (tools : List Tool) (st : VectorStore) :
    embed_tools embedder clock tools st =
      { tools := (toolLoop embedder clock
          (recordLoop (toolsIndex tools) tools st.points).1
          (syncAfterDelete tools st)).1,
        store := (toolLoop embedder clock
          (recordLoop (toolsIndex tools) tools st.points).1
          (syncAfterDelete tools st)).2.1,
        ops := Op.get_all_points ::
          ((if (syncStale tools st).isEmpty then []
            else [Op.delete (syncStale tools st)]) ++
            (toolLoop embedder clock
              (recordLoop (toolsIndex tools) tools st.points).1
              (syncAfterDelete tools st)).2.2) } := rfl

theorem syncAfterDelete_points (tools : List Tool) (st : VectorStore)
    (hids : (st.points.map (·.id)).Nodup) :
    (syncAfterDelete tools st).points =
      st.points.filter
        (fun r => (dictGet (toolsIndex tools) r.page_content).isSome) := by
  have hstale : syncStale tools st =
      (st.points.filter
        (fun r => (dictGet (toolsIndex tools) r.page_content).isNone)).map (·.id) :=
    recordLoop_stale (toolsIndex tools) tools st.points
  unfold syncAfterDelete
  by_cases hemp : (syncStale tools st).isEmpty
  · rw [if_pos hemp]
    rw [hstale] at hemp
    have hnil : st.points.filter
        (fun r => (dictGet (toolsIndex tools) r.page_content).isNone) = [] := by
      have := List.isEmpty_iff.mp hemp
      exact List.map_eq_nil.mp this
    have hall := List.filter_eq_nil.mp hnil
    symm
    rw [List.filter_eq_self]
    intro r hr
    have hno := hall r hr
    cases hg : dictGet (toolsIndex tools) r.page_content with
    | some j => rfl
    | none => rw [hg] at hno; simp at hno
  · rw [if_neg hemp]
    apply List.filter_congr
    intro r hr
    have hcontains : ((syncStale tools st).contains r.id) =
        (dictGet (toolsIndex tools) r.page_content).isNone := by
      rw [hstale]
      cases hg : dictGet (toolsIndex tools) r.page_content with
      | some j =>
        simp only [Option.isNone_some]
        rw [List.contains_eq_any_beq]
        rw [List.any_eq_false]
        intro x hx
        obtain ⟨r', hr', hid⟩ := List.mem_map.mp hx
        have hr'p := (List.mem_filter.mp hr').1
        have hP := (List.mem_filter.mp hr').2
        intro hbeq
        have heq : r.id = x := by exact_mod_cast (beq_iff_eq.mp hbeq)
        have : r' = r := by
          apply List.inj_on_of_nodup_map hids hr'p hr
          rw [hid, ← heq]
        rw [this] at hP
        rw [hg] at hP
        simp at hP
      | none =>
        simp only [Option.isNone_none]
        rw [List.contains_eq_any_beq]
        rw [List.any_eq_true]
        refine ⟨r.id, ?_, by simp⟩
        apply List.mem_map.mpr
        refine ⟨r, ?_, rfl⟩
        rw [List.mem_filter]
        exact ⟨hr, by rw [hg]; rfl⟩
    rw [hcontains]
    cases dictGet (toolsIndex tools) r.page_content <;> rfl

theorem toolsIndexAux_desc_congr (ts ts' : List Tool)
    (h : ts.map (·.description) = ts'.map (·.description)) :
    ∀ n d, toolsIndexAux n ts d = toolsIndexAux n ts' d := by
  induction ts generalizing ts' with
  | nil =>
    cases ts' with
    | nil => intro n d; rfl
    | cons t' ts2 => simp at h
  | cons t ts ih =>
    cases ts' with
    | nil => simp at h
    | cons t' ts2 =>
      simp only [List.map_cons, List.cons.injEq] at h
      intro n d
      simp only [toolsIndexAux]
      rw [h.1]
      exact ih ts2 h.2 (n + 1) (dictSet d t'.description n)

theorem toolsIndex_desc_congr (ts ts' : List Tool)
    (h : ts.map (·.description) = ts'.map (·.description)) :
    toolsIndex ts = toolsIndex ts' :=
  toolsIndexAux_desc_congr ts ts' h 0 []

/-! ## lastMatch over the freshly appended points -/

theorem lastMatch_newRecords_some (idx : List (String × Nat))
    (embedder : String → List Int) (clock : Nat) (l : List Tool)
    (p nid i : Nat) (r : Record)
    (hpos : ∀ j t, l.get? j = some t → dictGet idx t.description = some (p + j))
    (h : lastMatch idx i (newRecords embedder clock l nid) = some r) :
    ∃ j t, l.get? j = some t ∧ i = p + j ∧ ¬(truthy t.embedding = true) ∧
      r.vector = embedder t.description := by
  induction l generalizing p nid with
  | nil => cases h
  | cons t0 ts ih =>
    have hpos' : ∀ j t, ts.get? j = some t →
        dictGet idx t.description = some ((p + 1) + j) := by
      intro j t ht
      have hx := hpos (j + 1) t (by simpa using ht)
      have harith : p + (j + 1) = (p + 1) + j := by omega
      rw [harith] at hx
      exact hx
    by_cases h0 : truthy t0.embedding
    · simp only [newRecords] at h
      rw [if_pos h0] at h
      obtain ⟨j, t, hj, hi, hf, hv⟩ := ih (p + 1) nid hpos' h
      exact ⟨j + 1, t, by simpa using hj, by omega, hf, hv⟩
    · simp only [newRecords] at h
      rw [if_neg h0] at h
      simp only [lastMatch] at h
      cases hl : lastMatch idx i (newRecords embedder clock ts (nid + 1)) with
      | some r' =>
        rw [hl] at h; cases h
        obtain ⟨j, t, hj, hi, hf, hv⟩ := ih (p + 1) (nid + 1) hpos' hl
        exact ⟨j + 1, t, by simpa using hj, by omega, hf, hv⟩
      | none =>
        rw [hl] at h
        dsimp only at h
        have hd := hpos 0 t0 rfl
        rw [hd] at h
        dsimp only at h
        by_cases hpi : p + 0 = i
        · rw [if_pos hpi] at h
          cases h
          exact ⟨0, t0, rfl, by omega, h0, rfl⟩
        · rw [if_neg hpi] at h
          cases h

theorem lastMatch_newRecords_isSome (idx : List (String × Nat))
    (embedder : String → List Int) (clock : Nat) (l : List Tool)
    (p nid j : Nat) (t : Tool)
    (hpos : ∀ j t, l.get? j = some t → dictGet idx t.description = some (p + j))
    (hj : l.get? j = some t) (hf : ¬(truthy t.embedding = true)) :
    lastMatch idx (p + j) (newRecords embedder clock l nid) ≠ none := by
  induction l generalizing p nid j with
  | nil => cases hj
  | cons t0 ts ih =>
    have hpos' : ∀ j t, ts.get? j = some t →
        dictGet idx t.description = some ((p + 1) + j) := by
      intro j t ht
      have hx := hpos (j + 1) t (by simpa using ht)
      have harith : p + (j + 1) = (p + 1) + j := by omega
      rw [harith] at hx
      exact hx
    cases j with
    | zero =>
      have ht0 : t0 = t := by
        have : some t0 = some t := hj
        cases this; rfl
      subst ht0
      simp only [newRecords]
      rw [if_neg hf]
      simp only [lastMatch]
      cases hl : lastMatch idx (p + 0)
          (newRecords embedder clock ts (nid + 1)) with
      | some r' => intro hc; cases hc
      | none =>
        dsimp only
        have hd := hpos 0 t0 rfl
        rw [hd]
        dsimp only
        rw [if_pos rfl]
        intro hc; cases hc
    | succ j' =>
      have hj' : ts.get? j' = some t := hj
      by_cases h0 : truthy t0.embedding
      · simp only [newRecords]
        rw [if_pos h0]
        have harith : p + (j' + 1) = (p + 1) + j' := by omega
        rw [harith]
        exact ih (p + 1) nid j' hpos' hj'
      · simp only [newRecords]
        rw [if_neg h0]
        simp only [lastMatch]
        cases hl : lastMatch idx (p + (j' + 1))
            (newRecords embedder clock ts (nid + 1)) with
        | some r' => intro hc; cases hc
        | none =>
          have harith : p + (j' + 1) = (p + 1) + j' := by omega
          rw [harith] at hl
          exact absurd hl (ih (p + 1) (nid + 1) j' hpos' hj')

/-! ## Claim theorems on deletion batching, auth, uninstall, metadata -/

theorem toolLoop_no_delete (embedder : String → List Int) (clock : Nat)
    (ts : List Tool) (st : VectorStore) :
    ∀ op ∈ (toolLoop embedder clock ts st).2.2, isDeleteOp op = false := by
  induction ts generalizing st with
  | nil => intro op hop; cases hop
  | cons t ts ih =>
    intro op hop
    by_cases h0 : truthy t.embedding
    · simp only [toolLoop] at hop
      rw [if_pos h0] at hop
      exact ih st op hop
    · simp only [toolLoop] at hop
      rw [if_neg h0] at hop
      rcases List.mem_cons.mp hop with rfl | hop2
      · rfl
      · rcases List.mem_cons.mp hop2 with rfl | hop3
        · rfl
        · exact ih _ op hop3

theorem stale_ids_eq_syncStale (tools : List Tool) (st : VectorStore) :
    syncStale tools st = stale_record_ids tools st.points := by
  unfold syncStale
  rw [recordLoop_stale]
  unfold stale_record_ids
  congr 1
  apply List.filter_congr
  intro r _
  by_cases hmem : r.page_content ∈ tools.map (·.description)
  · have hcon : ((tools.map (·.description)).contains r.page_content) = true := by
      rw [List.contains_eq_any_beq, List.any_eq_true]
      exact ⟨r.page_content, hmem, by simp⟩
    rw [hcon]
    cases hg : dictGet (toolsIndex tools) r.page_content with
    | some j => rfl
    | none => exact absurd ((dictGet_toolsIndex_none_iff tools r.page_content).mp hg) (not_not_intro hmem)
  · have hg := (dictGet_toolsIndex_none_iff tools r.page_content).mpr hmem
    rw [hg]
    have hcon : ((tools.map (·.description)).contains r.page_content) = false := by
      rw [List.contains_eq_any_beq, List.any_eq_false]
      intro x hx
      intro hbeq
      exact hmem ((beq_iff_eq.mp hbeq) ▸ hx)
    rw [hcon]
    rfl

/-- C9: during embed_tools, every stored point whose description
matches no current tool is classified stale (the per-record lookup
failure is swallowed, never aborting the loop over all points), and
the marked ids are deleted in exactly one batch call: the trace holds
one delete operation carrying exactly those ids when any point is
stale, and no delete operation otherwise. -/
theorem embed_tools_stale_batch_delete (embedder : String → List Int) (clock : Nat)
    (tools : List Tool) (st : VectorStore) :
    (embed_tools embedder clock tools st).ops.filter isDeleteOp =
      (if (stale_record_ids tools st.points).isEmpty then []
       else [Op.delete (stale_record_ids tools st.points)]) := by
  rw [embed_tools_def]
  dsimp only
  rw [List.filter_cons_of_neg (by simp [isDeleteOp])]
  rw [List.filter_append]
  have haddops : (toolLoop embedder clock
      (recordLoop (toolsIndex tools) tools st.points).1
      (syncAfterDelete tools st)).2.2.filter isDeleteOp = [] := by
    rw [List.filter_eq_nil]
    intro op hop
    have := toolLoop_no_delete embedder clock _ _ op hop
    simp [this]
  rw [haddops, List.append_nil]
  rw [← stale_ids_eq_syncStale]
  by_cases hemp : (syncStale tools st).isEmpty
  · rw [if_pos hemp]
    rfl
  · rw [if_neg hemp]
    rfl

/-- C10: AuthStatic always runs the api-key check on the access_token
header first; static serving happens only after the check returned,
so the trace is either just the check (the check raised) or the check
followed by serving. -/
theorem authStatic_check_before_serve
    (check_api_key : Option String → Except String Unit) (request : AsgiRequest) :
    ((authStaticCall check_api_key request).2 =
        [AuthEvent.key_check (dictGet request.headers "access_token")] ∧
      (authStaticCall check_api_key request).1 =
        check_api_key (dictGet request.headers "access_token")) ∨
    ((authStaticCall check_api_key request).2 =
        [AuthEvent.key_check (dictGet request.headers "access_token"),
          AuthEvent.serve_static] ∧
      check_api_key (dictGet request.headers "access_token") = Except.ok ()) := by
  cases hc : check_api_key (dictGet request.headers "access_token") with
  | error e =>
    left
    constructor <;> simp [authStaticCall, hc]
  | ok u =>
    right
    cases u
    constructor <;> simp [authStaticCall, hc]

/-- C5 counterexample: a directory `foo` holding no .py files is not a
plugin, so no plugin with id "foo" exists; yet uninstall_plugin("foo")
succeeds instead of failing with NotFound, because the code only
removes the directory and never consults the registry. -/
theorem uninstall_plugin_no_registry_check_cex :
    plugin_exists (find_plugins demo_fs).1 "foo" = false ∧
    (uninstall_plugin demo_embedder 0 demo_fs ⟨[], 0⟩ "foo").isOk = true := by
  constructor <;> rfl

/-- C5 (amended): uninstall_plugin fails with the distinct
FileNotFound error exactly when no plugin directory with the given id
exists on disk; when such a directory exists (whether or not it is a
valid plugin) it removes that directory, performs the full rescan, and
re-runs the embedding sync on the rescanned tools. -/
theorem uninstall_plugin_dir_check (embedder : String → List Int) (clock : Nat)
    (fs : FS) (st : VectorStore) (plugin_id : String) :
    ((∀ f ∈ fs.plugin_folders, f.dirname ≠ plugin_id) →
      uninstall_plugin embedder clock fs st plugin_id =
        Except.error (PyError.file_not_found plugin_id)) ∧
    ((∃ f ∈ fs.plugin_folders, f.dirname = plugin_id) →
      uninstall_plugin embedder clock fs st plugin_id =
        Except.ok
          ⟨⟨fs.core_folder,
              fs.plugin_folders.filter (fun f => !(f.dirname == plugin_id))⟩,
            (find_plugins ⟨fs.core_folder,
              fs.plugin_folders.filter (fun f => !(f.dirname == plugin_id))⟩).1,
            (embed_tools embedder clock
              (find_plugins ⟨fs.core_folder,
                fs.plugin_folders.filter (fun f => !(f.dirname == plugin_id))⟩).2
              st).tools,
            (embed_tools embedder clock
              (find_plugins ⟨fs.core_folder,
                fs.plugin_folders.filter (fun f => !(f.dirname == plugin_id))⟩).2
              st).store,
            (embed_tools embedder clock
              (find_plugins ⟨fs.core_folder,
                fs.plugin_folders.filter (fun f => !(f.dirname == plugin_id))⟩).2
              st).ops⟩) := by
  constructor
  · intro hall
    have hany : (fs.plugin_folders.any (fun f => f.dirname == plugin_id)) = false := by
      rw [List.any_eq_false]
      intro f hf hbeq
      exact hall f hf (beq_iff_eq.mp hbeq)
    unfold uninstall_plugin rmtree
    rw [if_neg (by simp [hany])]
  · rintro ⟨f, hf, hfd⟩
    have hany : (fs.plugin_folders.any (fun f => f.dirname == plugin_id)) = true := by
      rw [List.any_eq_true]
      exact ⟨f, hf, by simp [hfd]⟩
    unfold uninstall_plugin rmtree
    rw [if_pos hany]

/-- Witness for C5 at concrete filesystems: a missing directory gives
the NotFound error; an existing directory is removed with success. -/
theorem uninstall_plugin_dir_check_witness :
    uninstall_plugin demo_embedder 0 demo_fs2 ⟨[], 0⟩ "nosuch" =
      Except.error (PyError.file_not_found "nosuch") ∧
    (uninstall_plugin demo_embedder 0 demo_fs2 ⟨[], 0⟩ "bar").isOk = true := by
  constructor
  · exact (uninstall_plugin_dir_check demo_embedder 0 demo_fs2 ⟨[], 0⟩ "nosuch").1
      (by decide)
  · rw [(uninstall_plugin_dir_check demo_embedder 0 demo_fs2 ⟨[], 0⟩ "bar").2
      ⟨demo_bar_folder, List.mem_singleton.mpr rfl, rfl⟩]
    rfl

/-- C8: get_plugin_metadata always derives the plugin id from the
directory basename and never from the descriptor; with the descriptor
absent or unparseable, or the corresponding field missing, name
defaults to the camel-cased id, version to "0.0.1", and description
to the text pointing at the missing plugin.json file. -/
theorem get_plugin_metadata_defaults (folder : PluginFolder) :
    (get_plugin_metadata folder).id = folder.dirname ∧
    (∀ d1 d2 : FileContent PluginJson,
      (get_plugin_metadata { folder with plugin_json := d1 }).id =
        (get_plugin_metadata { folder with plugin_json := d2 }).id) ∧
    (folder.plugin_json = none ∨ folder.plugin_json = some none →
      (get_plugin_metadata folder).name = to_camel_case folder.dirname ∧
      (get_plugin_metadata folder).version = "0.0.1" ∧
      (get_plugin_metadata folder).description = default_plugin_description) ∧
    (∀ j : PluginJson, folder.plugin_json = some (some j) →
      (j.name = none →
        (get_plugin_metadata folder).name = to_camel_case folder.dirname) ∧
      (j.version = none → (get_plugin_metadata folder).version = "0.0.1") ∧
      (j.description = none →
        (get_plugin_metadata folder).description = default_plugin_description)) := by
  refine ⟨rfl, fun d1 d2 => rfl, ?_, ?_⟩
  · rintro (hd | hd) <;> simp [get_plugin_metadata, hd, emptyPluginJson]
  · intro j hj
    refine ⟨fun hn => ?_, fun hv => ?_, fun hdesc => ?_⟩
    · simp [get_plugin_metadata, hj, hn]
    · simp [get_plugin_metadata, hj, hv]
    · simp [get_plugin_metadata, hj, hdesc]

/-- Witness for C8 at the concrete folder from the spec scenario: a
plugin directory `foo` with no descriptor yields name "Foo" (the
camel-cased id), version "0.0.1", and the default description. -/
theorem get_plugin_metadata_defaults_witness :
    (get_plugin_metadata demo_nodesc_folder).id = "foo" ∧
    (get_plugin_metadata demo_nodesc_folder).name = to_camel_case "foo" ∧
    (get_plugin_metadata demo_nodesc_folder).name = "Foo" ∧
    (get_plugin_metadata demo_nodesc_folder).version = "0.0.1" ∧
    (get_plugin_metadata demo_nodesc_folder).description =
      default_plugin_description := by
  have h := get_plugin_metadata_defaults demo_nodesc_folder
  obtain ⟨hid, _, hdef, _⟩ := h
  obtain ⟨hn, hv, hd⟩ := hdef (Or.inl rfl)
  exact ⟨hid, hn, by rw [hn]; decide, hv, hd⟩

/-! ## Helper lemmas towards the sync invariants -/

theorem lastMatch_some_match (idx : List (String × Nat)) (i : Nat)
    (rs : List Record) (r : Record) (h : lastMatch idx i rs = some r) :
    dictGet idx r.page_content = some i := by
  induction rs with
  | nil => cases h
  | cons r0 rs ih =>
    simp only [lastMatch] at h
    cases hl : lastMatch idx i rs with
    | some r' =>
      rw [hl] at h; cases h
      exact ih hl
    | none =>
      rw [hl] at h
      cases hg : dictGet idx r0.page_content with
      | some j =>
        rw [hg] at h
        dsimp only at h
        by_cases hij : j = i
        · rw [if_pos hij] at h
          cases h
          rw [hg, hij]
        · rw [if_neg hij] at h
          cases h
      | none => rw [hg] at h; cases h

theorem syncAfterDelete_next_id (tools : List Tool) (st : VectorStore) :
    (syncAfterDelete tools st).next_id = st.next_id := by
  unfold syncAfterDelete
  split <;> rfl

theorem syncAfterDelete_wf (tools : List Tool) (st : VectorStore)
    (hlt : ∀ r ∈ st.points, r.id < st.next_id) :
    ∀ r ∈ (syncAfterDelete tools st).points,
      r.id < (syncAfterDelete tools st).next_id := by
  rw [syncAfterDelete_next_id]
  unfold syncAfterDelete
  split
  · exact hlt
  · intro r hr
    exact hlt r (List.mem_filter.mp hr).1

theorem contains_iff_mem_str (l : List String) (s : String) :
    (l.contains s = true) ↔ s ∈ l := by
  rw [List.contains_eq_any_beq, List.any_eq_true]
  constructor
  · rintro ⟨x, hx, hbeq⟩
    exact (beq_iff_eq.mp hbeq) ▸ hx
  · intro hmem
    exact ⟨s, hmem, by simp⟩

theorem keepP_eq_contains (tools : List Tool) (r : Record) :
    (dictGet (toolsIndex tools) r.page_content).isSome =
      ((tools.map (·.description)).contains r.page_content) := by
  by_cases hmem : r.page_content ∈ tools.map (·.description)
  · have hcon := (contains_iff_mem_str (tools.map (·.description)) r.page_content).mpr hmem
    rw [hcon]
    cases hg : dictGet (toolsIndex tools) r.page_content with
    | some j => rfl
    | none =>
      exact absurd ((dictGet_toolsIndex_none_iff tools r.page_content).mp hg)
        (not_not_intro hmem)
  · have hg := (dictGet_toolsIndex_none_iff tools r.page_content).mpr hmem
    rw [hg]
    cases hcon : ((tools.map (·.description)).contains r.page_content) with
    | false => rfl
    | true => exact absurd (contains_iff_mem_str _ _ |>.mp hcon) hmem

theorem tool_set_emb_self (t : Tool) (v : List Int) (h : t.embedding = some v) :
    { t with embedding := some v } = t := by
  cases t
  simp only [Tool.mk.injEq, and_true, true_and]
  exact h.symm

theorem map_g_desc (embedder : String → List Int) (l : List Tool) :
    (l.map (fun t => if truthy t.embedding then t
      else { t with embedding := some (embedder t.description) })).map
        (·.description) = l.map (·.description) := by
  rw [List.map_map]
  apply List.map_congr_left
  intro t _
  by_cases h : truthy t.embedding
  · simp [h]
  · simp [h]

theorem recordLoop_get?_desc (idx : List (String × Nat)) (ts : List Tool)
    (rs : List Record) (j : Nat) (t : Tool)
    (h : (recordLoop idx ts rs).1.get? j = some t) :
    ∃ t0, ts.get? j = some t0 ∧ t.description = t0.description := by
  rw [recordLoop_get?] at h
  cases hl : lastMatch idx j rs with
  | some r =>
    rw [hl] at h
    cases ht0 : ts.get? j with
    | none => rw [ht0] at h; cases h
    | some t0 =>
      rw [ht0] at h
      cases h
      exact ⟨t0, rfl, rfl⟩
  | none =>
    rw [hl] at h
    exact ⟨t, h, rfl⟩

theorem filter_desc_congr (p q : Tool → Bool) :
    ∀ (l l' : List Tool), l.length = l'.length →
    (∀ i t t', l.get? i = some t → l'.get? i = some t' →
      t.description = t'.description ∧ p t = q t') →
    (l.filter p).map (·.description) = (l'.filter q).map (·.description) := by
  intro l
  induction l with
  | nil =>
    intro l' hlen _
    cases l' with
    | nil => rfl
    | cons t' ls' => cases hlen
  | cons t ls ih =>
    intro l' hlen hpt
    cases l' with
    | nil => cases hlen
    | cons t' ls' =>
      have h0 := hpt 0 t t' rfl rfl
      have hrest : (ls.filter p).map (·.description) =
          (ls'.filter q).map (·.description) := by
        apply ih ls' (by simpa using hlen)
        intro i a a' ha ha'
        exact hpt (i + 1) a a' (by simpa using ha) (by simpa using ha')
      cases hp : p t with
      | true =>
        rw [List.filter_cons_of_pos hp,
          List.filter_cons_of_pos (by rw [← h0.2]; exact hp)]
        simp only [List.map_cons]
        rw [h0.1, hrest]
      | false =>
        rw [List.filter_cons_of_neg (by simp [hp]),
          List.filter_cons_of_neg (by rw [← h0.2]; simp [hp])]
        exact hrest

/-- C1 counterexample: with two stored points sharing one description,
both match the single registered tool, neither is classified stale,
and after the sync the store holds two points against one tool, so
record count and tool count differ and no bijection exists. -/
theorem embed_tools_bijection_cex :
    (embed_tools demo_embedder 0 cex_dup_tools cex_dup_store).store.points.length = 2 ∧
    (embed_tools demo_embedder 0 cex_dup_tools cex_dup_store).tools.length = 1 := by
  constructor <;> rfl

/-- C2 counterexample: with two tools sharing a description, a second
run of embed_tools changes a tool embedding, so running the sync
twice does not leave the tools unchanged. -/
theorem embed_tools_idempotent_cex :
    (embed_tools demo_embedder 0
        (embed_tools demo_embedder 0 cex_c2_tools cex_c2_store).tools
        (embed_tools demo_embedder 0 cex_c2_tools cex_c2_store).store).tools ≠
      (embed_tools demo_embedder 0 cex_c2_tools cex_c2_store).tools := by
  decide

/-- C1 (amended): for tools with pairwise-distinct descriptions and
initially absent embeddings, and a well-formed store (distinct point
descriptions, distinct point ids below the allocation counter,
non-empty stored vectors), after embed_tools the stored points are in
bijection with the current tool descriptions: their description lists
are permutations of each other and without duplicates, the counts
agree, and every registered tool carries a non-absent embedding. -/
theorem embed_tools_sync_bijection (embedder : String → List Int) (clock : Nat)
    (tools : List Tool) (st : VectorStore)
    (hd : (tools.map (·.description)).Nodup)
    (hr : (st.points.map (·.page_content)).Nodup)
    (hv : ∀ r ∈ st.points, r.vector ≠ [])
    (he : ∀ t ∈ tools, t.embedding = none)
    (hids : (st.points.map (·.id)).Nodup)
    (hlt : ∀ r ∈ st.points, r.id < st.next_id) :
    ((embed_tools embedder clock tools st).store.points.map (·.page_content)).Perm
      ((embed_tools embedder clock tools st).tools.map (·.description)) ∧
    (embed_tools embedder clock tools st).store.points.length =
      (embed_tools embedder clock tools st).tools.length ∧
    ((embed_tools embedder clock tools st).store.points.map (·.page_content)).Nodup ∧
    ∀ t ∈ (embed_tools embedder clock tools st).tools, t.embedding.isSome = true := by
  rw [embed_tools_def]
  dsimp only
  have hstd_pts : (syncAfterDelete tools st).points =
      st.points.filter
        (fun r => (dictGet (toolsIndex tools) r.page_content).isSome) :=
    syncAfterDelete_points tools st hids
  have hwf : ∀ r ∈ (syncAfterDelete tools st).points,
      r.id < (syncAfterDelete tools st).next_id :=
    syncAfterDelete_wf tools st hlt
  have hspec := toolLoop_spec embedder clock
    (recordLoop (toolsIndex tools) tools st.points).1 (syncAfterDelete tools st) hwf
  have hdesc1 : (recordLoop (toolsIndex tools) tools st.points).1.map (·.description) =
      tools.map (·.description) :=
    recordLoop_map_desc (toolsIndex tools) tools st.points
  have hlen1 : (recordLoop (toolsIndex tools) tools st.points).1.length =
      tools.length := by
    have := congrArg List.length hdesc1
    simpa using this
  -- key pointwise correspondence between the record-loop output and
  -- the original tools
  have hP : ∀ i t t', (recordLoop (toolsIndex tools) tools st.points).1.get? i = some t →
      tools.get? i = some t' →
      t.description = t'.description ∧
      (!truthy t.embedding) =
        (!((st.points.map (·.page_content)).contains t'.description)) := by
    intro i t1 t0 h1 h0
    have hdesc : t1.description = t0.description := by
      obtain ⟨t0', h0', hde⟩ :=
        recordLoop_get?_desc (toolsIndex tools) tools st.points i t1 h1
      rw [h0] at h0'
      cases h0'
      exact hde
    refine ⟨hdesc, ?_⟩
    rw [recordLoop_get?] at h1
    cases hl : lastMatch (toolsIndex tools) i st.points with
    | some r =>
      rw [hl] at h1
      rw [h0] at h1
      cases h1
      have hrmem := lastMatch_mem (toolsIndex tools) i st.points r hl
      have hvne := hv r hrmem
      have htr : truthy ({ t0 with embedding := some r.vector } : Tool).embedding = true := by
        cases hvr : r.vector with
        | nil => exact absurd hvr hvne
        | cons a l => simp [truthy, hvr]
      have hcon : ((st.points.map (·.page_content)).contains t0.description) = true := by
        apply (contains_iff_mem_str _ _).mpr
        have hmatch := lastMatch_some_match (toolsIndex tools) i st.points r hl
        obtain ⟨t0', h0', hde'⟩ :=
          dictGet_toolsIndex_some tools r.page_content i hmatch
        rw [h0] at h0'
        cases h0'
        rw [hde']
        exact List.mem_map.mpr ⟨r, hrmem, rfl⟩
      rw [htr, hcon]
    | none =>
      rw [hl] at h1
      have hmem1 : t1 ∈ tools := List.get?_mem h1
      have hnone := he t1 hmem1
      have htr : truthy t1.embedding = false := by rw [hnone]; rfl
      have hcon : ((st.points.map (·.page_content)).contains t0.description) = false := by
        cases hcon : ((st.points.map (·.page_content)).contains t0.description) with
        | false => rfl
        | true =>
          obtain ⟨r, hrmem, hrpc⟩ :=
            List.mem_map.mp ((contains_iff_mem_str _ _).mp hcon)
          have hgr : dictGet (toolsIndex tools) r.page_content = some i := by
            rw [hrpc]
            exact dictGet_toolsIndex_eq_pos tools hd i t0 h0
          exact absurd hgr ((lastMatch_none_iff (toolsIndex tools) i st.points).mp hl r hrmem)
      rw [htr, hcon]
  have hfilter : ((recordLoop (toolsIndex tools) tools st.points).1.filter
        (fun t => !truthy t.embedding)).map (·.description) =
      (tools.filter
        (fun t => !((st.points.map (·.page_content)).contains t.description))).map
        (·.description) :=
    filter_desc_congr _ _ _ tools hlen1 hP
  have hkept : st.points.filter
        (fun r => (dictGet (toolsIndex tools) r.page_content).isSome) =
      st.points.filter
        (fun r => (tools.map (·.description)).contains r.page_content) :=
    List.filter_congr (fun r _ => keepP_eq_contains tools r)
  -- the two halves of the final store
  have hAnodup : ((st.points.filter
      (fun r => (tools.map (·.description)).contains r.page_content)).map
        (·.page_content)).Nodup :=
    List.Nodup.sublist (List.Sublist.map _ (List.filter_sublist st.points)) hr
  have hBnodup : ((tools.filter
      (fun t => (st.points.map (·.page_content)).contains t.description)).map
        (·.description)).Nodup :=
    List.Nodup.sublist (List.Sublist.map _ (List.filter_sublist tools)) hd
  have hCnodup : ((tools.filter
      (fun t => !((st.points.map (·.page_content)).contains t.description))).map
        (·.description)).Nodup :=
    List.Nodup.sublist (List.Sublist.map _ (List.filter_sublist tools)) hd
  have hAB : ((st.points.filter
      (fun r => (tools.map (·.description)).contains r.page_content)).map
        (·.page_content)).Perm
      ((tools.filter
        (fun t => (st.points.map (·.page_content)).contains t.description)).map
        (·.description)) := by
    rw [List.perm_ext_iff_of_nodup hAnodup hBnodup]
    intro d
    constructor
    · intro hdA
      obtain ⟨r, hrf, hrd⟩ := List.mem_map.mp hdA
      obtain ⟨hrp, hrc⟩ := List.mem_filter.mp hrf
      obtain ⟨t, htm, htd⟩ :=
        List.mem_map.mp ((contains_iff_mem_str _ _).mp hrc)
      apply List.mem_map.mpr
      refine ⟨t, List.mem_filter.mpr ⟨htm, ?_⟩, by rw [htd, hrd]⟩
      apply (contains_iff_mem_str _ _).mpr
      rw [htd]
      exact List.mem_map.mpr ⟨r, hrp, rfl⟩
    · intro hdB
      obtain ⟨t, htf, htd⟩ := List.mem_map.mp hdB
      obtain ⟨htm, htc⟩ := List.mem_filter.mp htf
      obtain ⟨r, hrp, hrd⟩ :=
        List.mem_map.mp ((contains_iff_mem_str _ _).mp htc)
      apply List.mem_map.mpr
      refine ⟨r, List.mem_filter.mpr ⟨hrp, ?_⟩, by rw [hrd, htd]⟩
      apply (contains_iff_mem_str _ _).mpr
      rw [hrd]
      exact List.mem_map.mpr ⟨t, htm, rfl⟩
  have hsplit : (((tools.filter
        (fun t => (st.points.map (·.page_content)).contains t.description)).map
        (·.description)) ++
      ((tools.filter
        (fun t => !((st.points.map (·.page_content)).contains t.description))).map
        (·.description))).Perm (tools.map (·.description)) := by
    rw [← List.map_append]
    exact List.Perm.map _ (List.filter_append_perm _ tools)
  have hmain : ((toolLoop embedder clock
        (recordLoop (toolsIndex tools) tools st.points).1
        (syncAfterDelete tools st)).2.1.points.map (·.page_content)).Perm
      ((toolLoop embedder clock
        (recordLoop (toolsIndex tools) tools st.points).1
        (syncAfterDelete tools st)).1.map (·.description)) := by
    rw [hspec.2.1, hspec.1, List.map_append, newRecords_map_pc, hstd_pts, hkept,
      hfilter, map_g_desc, hdesc1]
    exact (List.Perm.append_right _ hAB).trans hsplit
  refine ⟨hmain, ?_, ?_, ?_⟩
  · have h1 := hmain.length_eq
    simpa using h1
  · exact (hmain.nodup_iff).mpr (by rw [hspec.1, map_g_desc, hdesc1]; exact hd)
  · exact fun t ht => toolLoop_isSome embedder clock _ _ t ht

/-- Witness for C1 at a concrete state: one tool, one stale point. -/
theorem embed_tools_sync_bijection_witness :
    ((embed_tools demo_embedder 0 witness_c1_tools witness_c1_store).store.points.map
        (·.page_content)).Perm
      ((embed_tools demo_embedder 0 witness_c1_tools witness_c1_store).tools.map
        (·.description)) ∧
    (embed_tools demo_embedder 0 witness_c1_tools witness_c1_store).store.points.length =
      (embed_tools demo_embedder 0 witness_c1_tools witness_c1_store).tools.length ∧
    ((embed_tools demo_embedder 0 witness_c1_tools witness_c1_store).store.points.map
        (·.page_content)).Nodup ∧
    ∀ t ∈ (embed_tools demo_embedder 0 witness_c1_tools witness_c1_store).tools,
      t.embedding.isSome = true :=
  embed_tools_sync_bijection demo_embedder 0 witness_c1_tools witness_c1_store
    (by decide) (by decide) (by decide) (by decide) (by decide) (by decide)

/-- A sync input on which embed_tools is silent: no stale point, the
record loop reassigns every embedding to its current value, and every
embedding is truthy.  The run then only fetches the stored points. -/
theorem embed_tools_fixpoint (embedder : String → List Int) (clock : Nat)
    (T : List Tool) (S : VectorStore)
    (hstale : syncStale T S = [])
    (hrl : (recordLoop (toolsIndex T) T S.points).1 = T)
    (htruthy : ∀ t ∈ T, truthy t.embedding = true) :
    embed_tools embedder clock T S = ⟨T, S, [Op.get_all_points]⟩ := by
  have hafter : syncAfterDelete T S = S := by
    unfold syncAfterDelete
    rw [hstale]
    rfl
  rw [embed_tools_def, hrl, hafter]
  rw [toolLoop_all_truthy embedder clock T S htruthy]
  show SyncResult.mk T S
      (Op.get_all_points :: ((if (syncStale T S).isEmpty then []
        else [Op.delete (syncStale T S)]) ++ [])) = ⟨T, S, [Op.get_all_points]⟩
  rw [hstale]
  rfl

/-- C2 (amended): with pairwise-distinct tool descriptions, distinct
stored ids below the allocation counter, and an embedder producing
non-empty vectors, a second run of embed_tools directly after a first
performs zero add_texts calls and zero delete calls and leaves both
the tools and the stored points unchanged. -/
theorem embed_tools_idempotent (embedder : String → List Int) (clock : Nat)
    (tools : List Tool) (st : VectorStore)
    (hd : (tools.map (·.description)).Nodup)
    (hids : (st.points.map (·.id)).Nodup)
    (hlt : ∀ r ∈ st.points, r.id < st.next_id)
    (hemb : ∀ d, embedder d ≠ []) :
    (embed_tools embedder clock (embed_tools embedder clock tools st).tools
        (embed_tools embedder clock tools st).store).tools =
      (embed_tools embedder clock tools st).tools ∧
    (embed_tools embedder clock (embed_tools embedder clock tools st).tools
        (embed_tools embedder clock tools st).store).store =
      (embed_tools embedder clock tools st).store ∧
    (embed_tools embedder clock (embed_tools embedder clock tools st).tools
        (embed_tools embedder clock tools st).store).ops.filter isAddOp = [] ∧
    (embed_tools embedder clock (embed_tools embedder clock tools st).tools
        (embed_tools embedder clock tools st).store).ops.filter isDeleteOp = [] := by
  have hT1 : (embed_tools embedder clock tools st).tools =
      (toolLoop embedder clock (recordLoop (toolsIndex tools) tools st.points).1
        (syncAfterDelete tools st)).1 := rfl
  have hS1 : (embed_tools embedder clock tools st).store =
      (toolLoop embedder clock (recordLoop (toolsIndex tools) tools st.points).1
        (syncAfterDelete tools st)).2.1 := rfl
  have hstd_pts : (syncAfterDelete tools st).points =
      st.points.filter
        (fun r => (dictGet (toolsIndex tools) r.page_content).isSome) :=
    syncAfterDelete_points tools st hids
  have hwf : ∀ r ∈ (syncAfterDelete tools st).points,
      r.id < (syncAfterDelete tools st).next_id :=
    syncAfterDelete_wf tools st hlt
  have hspec := toolLoop_spec embedder clock
    (recordLoop (toolsIndex tools) tools st.points).1 (syncAfterDelete tools st) hwf
  have hdesc1 : (recordLoop (toolsIndex tools) tools st.points).1.map (·.description) =
      tools.map (·.description) :=
    recordLoop_map_desc (toolsIndex tools) tools st.points
  have hdescT1 : (embed_tools embedder clock tools st).tools.map (·.description) =
      tools.map (·.description) := by
    rw [hT1, hspec.1, map_g_desc, hdesc1]
  have hidx2 : toolsIndex (embed_tools embedder clock tools st).tools =
      toolsIndex tools :=
    toolsIndex_desc_congr _ tools hdescT1
  -- every tool is truthy after the first run
  have htruthy2 : ∀ t ∈ (embed_tools embedder clock tools st).tools,
      truthy t.embedding = true := by
    rw [hT1, hspec.1]
    intro t ht
    obtain ⟨t1, _, rfl⟩ := List.mem_map.mp ht
    by_cases h0 : truthy t1.embedding
    · rw [if_pos h0]; exact h0
    · rw [if_neg h0]
      cases hev : embedder t1.description with
      | nil => exact absurd hev (hemb t1.description)
      | cons a l => simp [truthy, hev]
  -- every surviving or appended point matches some current tool
  have hmatch2 : ∀ r ∈ (embed_tools embedder clock tools st).store.points,
      (dictGet (toolsIndex tools) r.page_content).isSome = true := by
    rw [hS1, hspec.2.1]
    intro r hr
    rcases List.mem_append.mp hr with hold | hnew
    · rw [hstd_pts] at hold
      exact (List.mem_filter.mp hold).2
    · have hpc : r.page_content ∈
          (newRecords embedder clock
            (recordLoop (toolsIndex tools) tools st.points).1
            (syncAfterDelete tools st).next_id).map (·.page_content) :=
        List.mem_map.mpr ⟨r, hnew, rfl⟩
      rw [newRecords_map_pc] at hpc
      obtain ⟨t1, ht1f, ht1d⟩ := List.mem_map.mp hpc
      have ht1m : t1 ∈ (recordLoop (toolsIndex tools) tools st.points).1 :=
        (List.mem_filter.mp ht1f).1
      have hin : r.page_content ∈ tools.map (·.description) := by
        rw [← ht1d, ← hdesc1]
        exact List.mem_map.mpr ⟨t1, ht1m, rfl⟩
      cases hg : dictGet (toolsIndex tools) r.page_content with
      | some j => rfl
      | none =>
        exact absurd ((dictGet_toolsIndex_none_iff tools r.page_content).mp hg)
          (not_not_intro hin)
  -- the record loop positions of the first-run tools
  have hpos : ∀ j t, (recordLoop (toolsIndex tools) tools st.points).1.get? j = some t →
      dictGet (toolsIndex tools) t.description = some (0 + j) := by
    intro j t hj
    obtain ⟨t0, h0, hde⟩ :=
      recordLoop_get?_desc (toolsIndex tools) tools st.points j t hj
    rw [hde, Nat.zero_add]
    exact dictGet_toolsIndex_eq_pos tools hd j t0 h0
  -- first-run embeddings agree with the last matching stored point
  have halign : ∀ i t, (embed_tools embedder clock tools st).tools.get? i = some t →
      ∀ r', lastMatch (toolsIndex tools) i
          (embed_tools embedder clock tools st).store.points = some r' →
        t.embedding = some r'.vector := by
    intro i t ht r' hr'
    rw [hS1, hspec.2.1, lastMatch_append] at hr'
    rw [hT1, hspec.1, List.get?_map] at ht
    cases hNR : lastMatch (toolsIndex tools) i
        (newRecords embedder clock
          (recordLoop (toolsIndex tools) tools st.points).1
          (syncAfterDelete tools st).next_id) with
    | some rN =>
      rw [hNR] at hr'
      have hrN : rN = r' := Option.some.inj hr'
      subst hrN
      obtain ⟨j, t1, hj, hi, hf, hvec⟩ :=
        lastMatch_newRecords_some (toolsIndex tools) embedder clock
          (recordLoop (toolsIndex tools) tools st.points).1 0
          (syncAfterDelete tools st).next_id i rN hpos hNR
      have hij : i = j := by omega
      rw [hij] at ht
      rw [hj] at ht
      have hteq := (Option.some.inj ht).symm
      rw [hteq]
      dsimp only
      rw [if_neg hf, hvec]
    | none =>
      rw [hNR] at hr'
      have hfull : lastMatch (toolsIndex tools) i st.points = some r' := by
        rw [hstd_pts] at hr'
        rw [lastMatch_filter] at hr'
        · exact hr'
        · intro r _ hq
          cases hg : dictGet (toolsIndex tools) r.page_content with
          | none => intro hc; cases hc
          | some j => rw [hg] at hq; cases hq
      have hRLi := recordLoop_get? (toolsIndex tools) tools st.points i
      rw [hfull] at hRLi
      cases h0 : tools.get? i with
      | none =>
        rw [h0] at hRLi
        rw [hRLi] at ht
        cases ht
      | some t0 =>
        rw [h0] at hRLi
        have hRLsome : (recordLoop (toolsIndex tools) tools st.points).1.get? i =
            some { t0 with embedding := some r'.vector } := by
          rw [hRLi]
          rfl
        rw [hRLsome] at ht
        simp only [Option.map_some'] at ht
        have hteq := (Option.some.inj ht).symm
        by_cases h0t : truthy ({ t0 with embedding := some r'.vector } : Tool).embedding
        · rw [hteq, if_pos h0t]
        · exfalso
          have hlast := lastMatch_newRecords_isSome (toolsIndex tools) embedder clock
            (recordLoop (toolsIndex tools) tools st.points).1 0
            (syncAfterDelete tools st).next_id i
            { t0 with embedding := some r'.vector } hpos hRLsome h0t
          rw [Nat.zero_add] at hlast
          exact hlast hNR
  -- the second run is the identity
  have hstale2 : syncStale (embed_tools embedder clock tools st).tools
      (embed_tools embedder clock tools st).store = [] := by
    unfold syncStale
    rw [hidx2, recordLoop_stale]
    have hnil : (embed_tools embedder clock tools st).store.points.filter
        (fun r => (dictGet (toolsIndex tools) r.page_content).isNone) = [] := by
      rw [List.filter_eq_nil]
      intro r hrm
      have hsome := hmatch2 r hrm
      intro hn
      rw [Option.isNone_iff_eq_none] at hn
      rw [hn] at hsome
      cases hsome
    rw [hnil]
    rfl
  have hrl2 : (recordLoop (toolsIndex (embed_tools embedder clock tools st).tools)
      (embed_tools embedder clock tools st).tools
      (embed_tools embedder clock tools st).store.points).1 =
      (embed_tools embedder clock tools st).tools := by
    rw [hidx2]
    apply List.ext
    intro n
    rw [recordLoop_get?]
    cases hlm : lastMatch (toolsIndex tools) n
        (embed_tools embedder clock tools st).store.points with
    | some r' =>
      cases htn : (embed_tools embedder clock tools st).tools.get? n with
      | none => rfl
      | some t =>
        have hemb_eq := halign n t htn r' hlm
        simp only [Option.map_some']
        rw [tool_set_emb_self t r'.vector hemb_eq]
    | none => rfl
  have hfix := embed_tools_fixpoint embedder clock
    (embed_tools embedder clock tools st).tools
    (embed_tools embedder clock tools st).store hstale2 hrl2 htruthy2
  rw [hfix]
  exact ⟨rfl, rfl, rfl, rfl⟩

/-- Witness for C2 at a concrete state: two tools with distinct
descriptions, one reusable point and one stale point. -/
theorem embed_tools_idempotent_witness :
    (embed_tools demo_embedder 0
        (embed_tools demo_embedder 0 witness_c2_tools witness_c2_store).tools
        (embed_tools demo_embedder 0 witness_c2_tools witness_c2_store).store).tools =
      (embed_tools demo_embedder 0 witness_c2_tools witness_c2_store).tools ∧
    (embed_tools demo_embedder 0
        (embed_tools demo_embedder 0 witness_c2_tools witness_c2_store).tools
        (embed_tools demo_embedder 0 witness_c2_tools witness_c2_store).store).store =
      (embed_tools demo_embedder 0 witness_c2_tools witness_c2_store).store ∧
    (embed_tools demo_embedder 0
        (embed_tools demo_embedder 0 witness_c2_tools witness_c2_store).tools
        (embed_tools demo_embedder 0 witness_c2_tools witness_c2_store).store).ops.filter
      isAddOp = [] ∧
    (embed_tools demo_embedder 0
        (embed_tools demo_embedder 0 witness_c2_tools witness_c2_store).tools
        (embed_tools demo_embedder 0 witness_c2_tools witness_c2_store).store).ops.filter
      isDeleteOp = [] :=
  embed_tools_idempotent demo_embedder 0 witness_c2_tools witness_c2_store
    (by decide) (by decide) (by decide) (fun d => by simp [demo_embedder])
